import Mathlib

/-!
Verification development for the Alice replay parser core.

The definitions below are shallow embeddings of the C++ sources:
src/alice/bitstream.hpp, src/alice/bitstream.cpp, src/alice/property.cpp,
src/alice/entity.cpp, src/alice/parser.cpp and src/alice/stringtable.cpp.
Machine integers are modelled as Nat/Int with explicit reductions modulo
2^32 or 2^64 where the C++ arithmetic can overflow; functions that throw
exceptions are modelled in the Except monad.
-/

namespace Alice

/-- Error kinds thrown by the embedded code paths.  The constructor
undefinedBehavior does not correspond to a C++ exception: it marks an
out-of-bounds container access that the C++ code would perform without
any check (undefined behavior).  The constructor noFuel marks exhaustion
of the fuel used to bound a source loop that has no explicit bound; the
theorems below only use runs where it cannot occur. -/
inductive Err where
  | bitstreamOverflow
  | bitstreamDataSize
  | propertyInvalidStringLength
  | propertyInvalidNumberOfElements
  | propertyInvalidType
  | entityIdTooLarge
  | entityUnknownSendprop
  | invalidArrayProp
  | stringtableKeyMissing
  | stringtableMalformedSubstring
  | stringtableValueOverflow
  | undefinedBehavior
  | noFuel
deriving DecidableEq, Repr

/-- Word size of std::size_t: position arithmetic in the C++ bitstream is
performed on 64-bit unsigned integers. -/
def W64 : Nat := 2 ^ 64

/-- Modulus for 32-bit unsigned arithmetic. -/
def W32 : Nat := 2 ^ 32

/-- A bitstream: dota::bitstream from bitstream.hpp.  The backing word
array is modelled as the list of its bits in stream order (bit i of byte
j of the input buffer sits at stream position 8*j+i, exactly the order
the masks/shift tables of bitstream::read extract).  pos and size are in
bits. -/
structure bitstream where
  bits : List Bool
  pos : Nat
  size : Nat
deriving DecidableEq, Repr

/-- The stream bit at position p (false beyond the buffer). -/
def bitAt (bits : List Bool) (p : Nat) : Bool := bits.getD p false

/-- Value of the n bits starting at position p, little endian: this is
what bitstream::read assembles from the word array. -/
def bitsVal (bits : List Bool) : Nat → Nat → Nat
  | _, 0 => 0
  | p, n + 1 => (if bitAt bits p then 1 else 0) + 2 * bitsVal bits (p + 1) n

/-- Bits of one input byte, least significant first (bitstream ctor
memcpy of the buffer into the little-endian word array). -/
def byteBits (b : Nat) : List Bool := (List.range 8).map (fun i => b.testBit i)

/-- Concatenated bit list of a byte buffer. -/
def bytesBits (bytes : List Nat) : List Bool :=
  bytes.foldr (fun b acc => byteBits b ++ acc) []

/-- Construct a bitstream from a byte buffer: bitstream::bitstream(const
std::string&).  Buffers over DOTA_BITSTREAM_MAX_SIZE = 65536 bytes are
rejected with bitstreamDataSize. -/
def bitstream.fromBytes (bytes : List Nat) : Except Err bitstream :=
  if bytes.length > 65536 then .error .bitstreamDataSize
  else .ok { bits := bytesBits bytes, pos := 0, size := 8 * bytes.length }

/-- bitstream::read(n): fails when more bits are requested than remain or
when n exceeds 32, otherwise returns the n bits at pos and advances pos
by n. -/
def bitstream.read (s : bitstream) (n : Nat) : Except Err (Nat × bitstream) :=
  if n > s.size - s.pos then .error .bitstreamOverflow
  else if n > 32 then .error .bitstreamOverflow
  else .ok (bitsVal s.bits s.pos n, { s with pos := s.pos + n })

/-- bitstream::seekForward(n): pos += n in size_t arithmetic, clamped to
size when the result overshoots. -/
def bitstream.seekForward (s : bitstream) (n : Nat) : bitstream :=
  if (s.pos + n) % W64 > s.size then { s with pos := s.size }
  else { s with pos := (s.pos + n) % W64 }

/-- bitstream::seekBackward(n): pos -= n in size_t arithmetic; the source
detects wraparound with ((pos - n) > pos) and clamps to 0 in that case. -/
def bitstream.seekBackward (s : bitstream) (n : Nat) : bitstream :=
  if (s.pos + W64 - n % W64) % W64 > s.pos then { s with pos := 0 }
  else { s with pos := (s.pos + W64 - n % W64) % W64 }

theorem seekForward_pos_of_le {s : bitstream} {n : Nat}
    (hle : s.pos + n ≤ s.size) (hsz : s.size < W64) :
    (s.seekForward n).pos = s.pos + n := by
  have h1 : (s.pos + n) % W64 = s.pos + n := Nat.mod_eq_of_lt (lt_of_le_of_lt hle hsz)
  unfold bitstream.seekForward
  rw [h1, if_neg (by omega)]

/-- bitstream::nReadUInt(n): just read(n). -/
def bitstream.nReadUInt (s : bitstream) (n : Nat) : Except Err (Nat × bitstream) :=
  s.read n

/-- bitstream::nReadSInt(n): read(n) reinterpreted in two's complement,
via ret = ret - sign - sign when ret is at least sign = 1 shl (n-1). -/
def bitstream.nReadSInt (s : bitstream) (n : Nat) : Except Err (Int × bitstream) :=
  match s.read n with
  | .error e => .error e
  | .ok (v, s1) =>
    if v ≥ 2 ^ (n - 1) then .ok ((v : Int) - 2 ^ (n - 1) - 2 ^ (n - 1), s1)
    else .ok ((v : Int), s1)

/-- Loop of bitstream::nReadVarUInt32.  remaining counts the iterations
left before the VARINT32_MAX = 5 cap; the cap test sits at the top of
the source do-while loop, so when remaining reaches 0 the accumulated
value is returned without failing.  The uint32 accumulator truncates the
shifted chunk modulo 2^32. -/
def nReadVarUInt32Loop : Nat → Nat → Nat → bitstream → Except Err (Nat × bitstream)
  | 0, _, value, s => .ok (value, s)
  | remaining + 1, shift, value, s =>
    match s.read 8 with
    | .error e => .error e
    | .ok (tmp, s1) =>
      if tmp &&& 0x80 ≠ 0 then
        nReadVarUInt32Loop remaining (shift + 7) (value ||| (((tmp &&& 0x7F) <<< shift) % W32)) s1
      else .ok (value ||| (((tmp &&& 0x7F) <<< shift) % W32), s1)

/-- bitstream::nReadVarUInt32. -/
def bitstream.nReadVarUInt32 (s : bitstream) : Except Err (Nat × bitstream) :=
  nReadVarUInt32Loop 5 0 0 s

/-- Loop of bitstream::nReadVarUInt64, capped at VARINT64_MAX = 10
bytes, with a uint64 accumulator. -/
def nReadVarUInt64Loop : Nat → Nat → Nat → bitstream → Except Err (Nat × bitstream)
  | 0, _, value, s => .ok (value, s)
  | remaining + 1, shift, value, s =>
    match s.read 8 with
    | .error e => .error e
    | .ok (tmp, s1) =>
      if tmp &&& 0x80 ≠ 0 then
        nReadVarUInt64Loop remaining (shift + 7) (value ||| (((tmp &&& 0x7F) <<< shift) % W64)) s1
      else .ok (value ||| (((tmp &&& 0x7F) <<< shift) % W64), s1)

/-- bitstream::nReadVarUInt64. -/
def bitstream.nReadVarUInt64 (s : bitstream) : Except Err (Nat × bitstream) :=
  nReadVarUInt64Loop 10 0 0 s

/-- Protobuf zigzag decoding of a 32-bit unsigned value, as computed by
(value shr 1) xor -(int32)(value and 1). -/
def zigzag32 (v : Nat) : Int :=
  if v % 2 = 0 then (v / 2 : Nat) else -((v / 2 : Nat) : Int) - 1

/-- bitstream::nReadVarSInt32: zigzag-decoded varint. -/
def bitstream.nReadVarSInt32 (s : bitstream) : Except Err (Int × bitstream) :=
  match s.nReadVarUInt32 with
  | .error e => .error e
  | .ok (v, s1) => .ok (zigzag32 v, s1)

/-- Loop of bitstream::nSkipVarInt: do seekForward(7) while (read(1)).
The source loop has no iteration cap; the fuel is chosen below so that
it can never run out on a stream whose position is within its size. -/
def nSkipVarIntAux : Nat → bitstream → Except Err bitstream
  | 0, _ => .error .noFuel
  | fuel + 1, s =>
    match (s.seekForward 7).read 1 with
    | .error e => .error e
    | .ok (b, s1) => if b ≠ 0 then nSkipVarIntAux fuel s1 else .ok s1

/-- bitstream::nSkipVarInt. -/
def bitstream.nSkipVarInt (s : bitstream) : Except Err bitstream :=
  nSkipVarIntAux (s.size + 1 - s.pos) s

/-- Whole-byte loop of bitstream::readBits: k iterations of read(8). -/
def readBitsLoop : Nat → bitstream → Except Err (List Nat × bitstream)
  | 0, s => .ok ([], s)
  | k + 1, s =>
    match s.read 8 with
    | .error e => .error e
    | .ok (b, s1) =>
      match readBitsLoop k s1 with
      | .error e => .error e
      | .ok (bs, s2) => .ok (b :: bs, s2)

/-- bitstream::readBits(buffer, n): reads in chunks of 8 bits while at
least 8 bits remain (n / 8 whole iterations), then a final partial read
of the n mod 8 leftover bits; returns the bytes written to the buffer. -/
def bitstream.readBits (s : bitstream) (n : Nat) : Except Err (List Nat × bitstream) :=
  match readBitsLoop (n / 8) s with
  | .error e => .error e
  | .ok (bs, s1) =>
    if n % 8 > 0 then
      match s1.read (n % 8) with
      | .error e => .error e
      | .ok (b, s2) => .ok (bs ++ [b], s2)
    else .ok (bs, s1)

/-- bitstream::nSkipString(n): reads up to n characters of 8 bits,
stopping once a NUL byte has been consumed. -/
def nSkipStringLoop : Nat → bitstream → Except Err bitstream
  | 0, s => .ok s
  | n + 1, s =>
    match s.read 8 with
    | .error e => .error e
    | .ok (b, s1) => if b = 0 then .ok s1 else nSkipStringLoop n s1

/-- readString from property.cpp: 9 bits of length, which must not
exceed PROPERTY_MAX_STRING_LENGTH = 512, then 8*length bits of data. -/
def readStringProp (s : bitstream) : Except Err (Nat × List Nat × bitstream) :=
  match s.read 9 with
  | .error e => .error e
  | .ok (length, s1) =>
    if length > 512 then .error .propertyInvalidStringLength
    else
      match s1.readBits (8 * length) with
      | .error e => .error e
      | .ok (buf, s2) => .ok (length, buf, s2)

/-- skipString from property.cpp: 9 bits of length, then nSkipString. -/
def skipStringProp (s : bitstream) : Except Err bitstream :=
  match s.read 9 with
  | .error e => .error e
  | .ok (length, s1) => nSkipStringLoop length s1

/-- Stream position after a value-returning decode, when it succeeded. -/
def posAfterR {α : Type} (r : Except Err (α × bitstream)) : Option Nat :=
  match r with
  | .ok (_, s) => some s.pos
  | .error _ => none

/-- Stream position after a skip, when it succeeded. -/
def posAfterS (r : Except Err bitstream) : Option Nat :=
  match r with
  | .ok s => some s.pos
  | .error _ => none

/-- Stream position after a decode returning two values. -/
def posAfterT {α β : Type} (r : Except Err (α × β × bitstream)) : Option Nat :=
  match r with
  | .ok (_, _, s) => some s.pos
  | .error _ => none

theorem read_eq_ok {s : bitstream} {n : Nat} (h : s.pos + n ≤ s.size) (h32 : n ≤ 32) :
    s.read n = .ok (bitsVal s.bits s.pos n, { s with pos := s.pos + n }) := by
  unfold bitstream.read
  rw [if_neg (by omega), if_neg (by omega)]

theorem bitsVal_testBit (bits : List Bool) :
    ∀ (n p i : Nat), (bitsVal bits p n).testBit i = ((i < n) && bitAt bits (p + i)) := by
  intro n
  induction n with
  | zero => intro p i; simp [bitsVal, Nat.testBit, Nat.zero_shiftRight]
  | succ m ih =>
    intro p i
    cases i with
    | zero =>
      rw [Nat.testBit_zero]
      simp only [bitsVal, Nat.add_zero]
      by_cases hb : bitAt bits p = true
      · simp only [hb]; simp [Nat.add_mul_mod_self_left]
      · rw [Bool.not_eq_true] at hb
        simp only [hb]; simp [Nat.add_mul_mod_self_left]
    | succ j =>
      rw [Nat.testBit_add_one]
      have hdiv : bitsVal bits p (m + 1) / 2 = bitsVal bits (p + 1) m := by
        simp only [bitsVal]
        by_cases hb : bitAt bits p = true
        · simp only [hb]; simp [Nat.add_mul_div_left]
        · rw [Bool.not_eq_true] at hb
          simp only [hb]; simp [Nat.add_mul_div_left]
      rw [hdiv, ih (p + 1) j]
      have harg : p + 1 + j = p + (j + 1) := by omega
      rw [harg]
      by_cases hj : j < m
      · simp [hj, Nat.succ_lt_succ hj]
      · have hnj : ¬ (j + 1 < m + 1) := by omega
        simp [hj, hnj]

theorem and_128_ne_zero {v : Nat} : v &&& 128 ≠ 0 ↔ v.testBit 7 = true := by
  have h := Nat.and_two_pow v 7
  norm_num at h
  rw [h]
  rcases hb : v.testBit 7 <;> simp [hb]

/-- The continuation test tmpBuf and 0x80 on a byte read at position p
inspects exactly the stream bit at position p + 7. -/
theorem cont_bit_iff (bits : List Bool) (p : Nat) :
    (bitsVal bits p 8 &&& 128 ≠ 0) ↔ bitAt bits (p + 7) = true := by
  rw [and_128_ne_zero, bitsVal_testBit]
  simp

/-- A one-bit read returns the bit at the read position. -/
theorem bitsVal_one (bits : List Bool) (p : Nat) :
    bitsVal bits p 1 = if bitAt bits p then 1 else 0 := by
  simp [bitsVal]

/-- When the first clear continuation bit among the bytes ahead is at
byte k, the varint read loop consumes exactly k+1 bytes. -/
theorem varReadLoop_advance :
    ∀ (k rem shift value : Nat) (s : bitstream), k < rem →
      (∀ i, i < k → bitAt s.bits (s.pos + 8 * i + 7) = true) →
      bitAt s.bits (s.pos + 8 * k + 7) = false →
      s.pos + 8 * (k + 1) ≤ s.size →
      ∃ v s', nReadVarUInt32Loop rem shift value s = .ok (v, s') ∧
        s'.pos = s.pos + 8 * (k + 1) ∧ s'.bits = s.bits ∧ s'.size = s.size := by
  intro k
  induction k with
  | zero =>
    intro rem shift value s hrem hcont hstop hroom
    obtain ⟨r, rfl⟩ : ∃ r, rem = r + 1 := ⟨rem - 1, by omega⟩
    have hread : s.read 8 = .ok (bitsVal s.bits s.pos 8, { s with pos := s.pos + 8 }) :=
      read_eq_ok (by omega) (by omega)
    have hc : ¬ (bitsVal s.bits s.pos 8 &&& 128 ≠ 0) := by
      rw [cont_bit_iff]
      simp only [Nat.mul_zero, Nat.add_zero] at hstop
      simp [hstop]
    refine ⟨value ||| (((bitsVal s.bits s.pos 8 &&& 127) <<< shift) % W32),
      { s with pos := s.pos + 8 }, ?_, by simp, rfl, rfl⟩
    simp only [nReadVarUInt32Loop, hread, if_neg hc]
  | succ k ih =>
    intro rem shift value s hrem hcont hstop hroom
    obtain ⟨r, rfl⟩ : ∃ r, rem = r + 1 := ⟨rem - 1, by omega⟩
    have hread : s.read 8 = .ok (bitsVal s.bits s.pos 8, { s with pos := s.pos + 8 }) :=
      read_eq_ok (by omega) (by omega)
    have hc : bitsVal s.bits s.pos 8 &&& 128 ≠ 0 := by
      rw [cont_bit_iff]
      have h0 := hcont 0 (by omega)
      simpa using h0
    obtain ⟨v, s', hloop, hpos, hbits, hsize⟩ :=
      ih r (shift + 7) (value ||| (((bitsVal s.bits s.pos 8 &&& 127) <<< shift) % W32))
        { s with pos := s.pos + 8 } (by omega)
        (by intro i hi
            have h1 := hcont (i + 1) (by omega)
            simp only
            have he : s.pos + 8 + 8 * i + 7 = s.pos + 8 * (i + 1) + 7 := by ring
            rw [he]; exact h1)
        (by simp only
            have he : s.pos + 8 + 8 * k + 7 = s.pos + 8 * (k + 1) + 7 := by ring
            rw [he]; exact hstop)
        (by simp only; omega)
    simp only at hpos
    refine ⟨v, s', ?_, by omega, hbits, hsize⟩
    simp only [nReadVarUInt32Loop, hread, if_pos hc]
    exact hloop

/-- When the first clear continuation bit among the bytes ahead is at
byte k, the varint skip loop consumes exactly k+1 bytes as well. -/
theorem varSkipLoop_advance :
    ∀ (k fuel : Nat) (s : bitstream), k < fuel →
      (∀ i, i < k → bitAt s.bits (s.pos + 8 * i + 7) = true) →
      bitAt s.bits (s.pos + 8 * k + 7) = false →
      s.pos + 8 * (k + 1) ≤ s.size → s.size < W64 →
      ∃ s', nSkipVarIntAux fuel s = .ok s' ∧
        s'.pos = s.pos + 8 * (k + 1) ∧ s'.bits = s.bits ∧ s'.size = s.size := by
  intro k
  induction k with
  | zero =>
    intro fuel s hfuel hcont hstop hroom hsz
    obtain ⟨f, rfl⟩ : ∃ f, fuel = f + 1 := ⟨fuel - 1, by omega⟩
    have hseek : s.seekForward 7 = { s with pos := s.pos + 7 } := by
      unfold bitstream.seekForward
      rw [Nat.mod_eq_of_lt (by omega), if_neg (by omega)]
    have hread : ({ s with pos := s.pos + 7 } : bitstream).read 1 =
        .ok (bitsVal s.bits (s.pos + 7) 1, { s with pos := s.pos + 7 + 1 }) := by
      have h1 := read_eq_ok (s := { s with pos := s.pos + 7 }) (n := 1) (by simp; omega) (by omega)
      simpa using h1
    have hb : bitsVal s.bits (s.pos + 7) 1 = 0 := by
      rw [bitsVal_one]
      simp only [Nat.mul_zero, Nat.add_zero] at hstop
      simp [hstop]
    refine ⟨{ s with pos := s.pos + 7 + 1 }, ?_, by simp, rfl, rfl⟩
    simp only [nSkipVarIntAux, hseek, hread, hb]
    simp
  | succ k ih =>
    intro fuel s hfuel hcont hstop hroom hsz
    obtain ⟨f, rfl⟩ : ∃ f, fuel = f + 1 := ⟨fuel - 1, by omega⟩
    have hseek : s.seekForward 7 = { s with pos := s.pos + 7 } := by
      unfold bitstream.seekForward
      rw [Nat.mod_eq_of_lt (by omega), if_neg (by omega)]
    have hread : ({ s with pos := s.pos + 7 } : bitstream).read 1 =
        .ok (bitsVal s.bits (s.pos + 7) 1, { s with pos := s.pos + 7 + 1 }) := by
      have h1 := read_eq_ok (s := { s with pos := s.pos + 7 }) (n := 1) (by simp; omega) (by omega)
      simpa using h1
    have hb : bitsVal s.bits (s.pos + 7) 1 = 1 := by
      rw [bitsVal_one]
      have h0 := hcont 0 (by omega)
      simp only [Nat.mul_zero, Nat.add_zero] at h0
      simp [h0]
    obtain ⟨s', hloop, hpos, hbits, hsize⟩ :=
      ih f { s with pos := s.pos + 7 + 1 } (by omega)
        (by intro i hi
            have h1 := hcont (i + 1) (by omega)
            simp only
            have he : s.pos + 7 + 1 + 8 * i + 7 = s.pos + 8 * (i + 1) + 7 := by ring
            rw [he]; exact h1)
        (by simp only
            have he : s.pos + 7 + 1 + 8 * k + 7 = s.pos + 8 * (k + 1) + 7 := by ring
            rw [he]; exact hstop)
        (by simp only; omega) (by simpa using hsz)
    simp only at hpos
    refine ⟨s', ?_, by omega, hbits, hsize⟩
    simp only [nSkipVarIntAux, hseek, hread, hb]
    simpa using hloop

theorem readBitsLoop_advance :
    ∀ (k : Nat) (s : bitstream), s.pos + 8 * k ≤ s.size →
      ∃ bs s', readBitsLoop k s = .ok (bs, s') ∧
        s'.pos = s.pos + 8 * k ∧ s'.bits = s.bits ∧ s'.size = s.size := by
  intro k
  induction k with
  | zero => intro s _; exact ⟨[], s, rfl, by omega, rfl, rfl⟩
  | succ m ih =>
    intro s hroom
    have hread : s.read 8 = .ok (bitsVal s.bits s.pos 8, { s with pos := s.pos + 8 }) :=
      read_eq_ok (by omega) (by omega)
    obtain ⟨bs, s', hrec, hpos, hbits, hsize⟩ :=
      ih { s with pos := s.pos + 8 } (by simp only; omega)
    simp only at hpos
    refine ⟨bitsVal s.bits s.pos 8 :: bs, s', ?_, by omega, hbits, hsize⟩
    simp only [readBitsLoop, hread, hrec]

/-- readBits(n) succeeds and advances the position by exactly n bits
whenever enough data remains. -/
theorem readBits_advance :
    ∀ (n : Nat) (s : bitstream), s.pos + n ≤ s.size →
      ∃ bs s', s.readBits n = .ok (bs, s') ∧
        s'.pos = s.pos + n ∧ s'.bits = s.bits ∧ s'.size = s.size := by
  intro n s hroom
  obtain ⟨bs, s1, hloop, hpos, hbits, hsize⟩ :=
    readBitsLoop_advance (n / 8) s (by omega)
  by_cases hrem : n % 8 > 0
  · have hread : s1.read (n % 8) =
        .ok (bitsVal s1.bits s1.pos (n % 8), { s1 with pos := s1.pos + n % 8 }) :=
      read_eq_ok (by omega) (by omega)
    refine ⟨bs ++ [bitsVal s1.bits s1.pos (n % 8)], { s1 with pos := s1.pos + n % 8 }, ?_,
      by simp only; omega, by simpa using hbits, by simpa using hsize⟩
    simp only [bitstream.readBits, hloop, if_pos hrem, hread]
  · refine ⟨bs, s1, ?_, by omega, hbits, hsize⟩
    simp only [bitstream.readBits, hloop, if_neg hrem]

/-- nSkipString(L) consumes exactly 8*L bits when none of the first L-1
bytes ahead is NUL. -/
theorem skipStringLoop_advance :
    ∀ (L : Nat) (s : bitstream), s.pos + 8 * L ≤ s.size →
      (∀ i, i + 1 < L → bitsVal s.bits (s.pos + 8 * i) 8 ≠ 0) →
      ∃ s', nSkipStringLoop L s = .ok s' ∧
        s'.pos = s.pos + 8 * L ∧ s'.bits = s.bits ∧ s'.size = s.size := by
  intro L
  induction L with
  | zero =>
    intro s _ _
    exact ⟨s, rfl, by omega, rfl, rfl⟩
  | succ m ih =>
    intro s hroom hnz
    have hread : s.read 8 = .ok (bitsVal s.bits s.pos 8, { s with pos := s.pos + 8 }) :=
      read_eq_ok (by omega) (by omega)
    by_cases hm : m = 0
    · subst hm
      by_cases hb : bitsVal s.bits s.pos 8 = 0
      · refine ⟨{ s with pos := s.pos + 8 }, ?_, by simp, rfl, rfl⟩
        simp only [nSkipStringLoop, hread, if_pos hb]
      · refine ⟨{ s with pos := s.pos + 8 }, ?_, by simp, rfl, rfl⟩
        simp only [nSkipStringLoop, hread, if_neg hb]
    · have hb : bitsVal s.bits s.pos 8 ≠ 0 := by
        have h1 := hnz 0 (by omega)
        simpa using h1
      obtain ⟨s', hrec, hpos, hbits, hsize⟩ :=
        ih { s with pos := s.pos + 8 } (by simp only; omega)
          (by intro i hi
              have h1 := hnz (i + 1) (by omega)
              simp only
              have he : s.pos + 8 + 8 * i = s.pos + 8 * (i + 1) := by ring
              rw [he]; exact h1)
      simp only at hpos
      refine ⟨s', ?_, by omega, hbits, hsize⟩
      simp only [nSkipStringLoop, hread, if_neg hb]
      exact hrec

/-- C1 counterexample streams.  c1VarStream carries five continuation
bytes 0x80 followed by a terminator byte; c1StrStream carries a 9-bit
string length of 2 followed by the bytes 0x00 and 0x41. -/
def c1VarStream : bitstream :=
  { bits := bytesBits [128, 128, 128, 128, 128, 0], pos := 0, size := 48 }

def c1StrStream : bitstream :=
  { bits := bytesBits [2, 0, 130, 0], pos := 0, size := 32 }

/-- C1 — counterexample.  The claim that read and skip always advance
the position identically fails for both pairs it names.  On a varint of
five continuation bytes followed by a sixth byte, nReadVarUInt32 stops
at the VARINT32_MAX cap after 40 bits while nSkipVarInt keeps consuming
and stops after 48 bits.  On a string of announced length 2 whose first
byte is NUL, readString consumes 9 + 16 bits while skipString stops at
the NUL after 9 + 8 bits. -/
theorem c1_read_skip_counterexample :
    bitstream.fromBytes [128, 128, 128, 128, 128, 0] = .ok c1VarStream ∧
    posAfterR c1VarStream.nReadVarUInt32 = some 40 ∧
    posAfterS c1VarStream.nSkipVarInt = some 48 ∧
    (40 : Nat) ≠ 48 ∧
    posAfterT (readStringProp c1StrStream) = some 25 ∧
    posAfterS (skipStringProp c1StrStream) = some 17 ∧
    (25 : Nat) ≠ 17 := by
  refine ⟨rfl, ?_, ?_, by decide, ?_, ?_, by decide⟩ <;> rfl

/-- C1 (amended).  Read and skip advance the position by the same
amount on well-formed data: for the varint pair, whenever the varint
terminates within the 5-byte cap of the u32 decoder, both advance by
8*(k+1) bits where byte k is the first terminator; for the string pair,
whenever none of the first length-1 announced bytes is NUL, both
advance by 9 + 8*length bits.  (On a varint with 5 or more continuation
bytes the read stops at its cap while the skip continues, and on a
string with an early NUL byte the skip stops early: there the two
advances differ, as the counterexample shows.) -/
theorem c1_read_skip_advance_agree :
    (∀ (s : bitstream) (k : Nat), k < 5 →
      (∀ i, i < k → s.bits.getD (s.pos + 8 * i + 7) false = true) →
      s.bits.getD (s.pos + 8 * k + 7) false = false →
      s.pos + 8 * (k + 1) ≤ s.size → s.size < W64 →
      ∃ v s1 s2, s.nReadVarUInt32 = .ok (v, s1) ∧ s.nSkipVarInt = .ok s2 ∧
        s1.pos = s2.pos ∧ s1.pos = s.pos + 8 * (k + 1)) ∧
    (∀ (s : bitstream), bitsVal s.bits s.pos 9 ≤ 512 →
      s.pos + 9 + 8 * bitsVal s.bits s.pos 9 ≤ s.size →
      (∀ i < bitsVal s.bits s.pos 9, i + 1 < bitsVal s.bits s.pos 9 →
        bitsVal s.bits (s.pos + 9 + 8 * i) 8 ≠ 0) →
      ∃ len buf s1 s2, readStringProp s = .ok (len, buf, s1) ∧
        skipStringProp s = .ok s2 ∧ s1.pos = s2.pos ∧
        s1.pos = s.pos + 9 + 8 * bitsVal s.bits s.pos 9) := by
  constructor
  · intro s k hk hcont hstop hroom hsz
    obtain ⟨v, s1, hread, hpos1, _, _⟩ :=
      varReadLoop_advance k 5 0 0 s hk hcont hstop hroom
    obtain ⟨s2, hskip, hpos2, _, _⟩ :=
      varSkipLoop_advance k (s.size + 1 - s.pos) s (by omega) hcont hstop hroom hsz
    exact ⟨v, s1, s2, hread, hskip, by omega, hpos1⟩
  · intro s hlen hroom hnz
    have hread9 : s.read 9 = .ok (bitsVal s.bits s.pos 9, { s with pos := s.pos + 9 }) :=
      read_eq_ok (by omega) (by omega)
    obtain ⟨buf, s1, hbits, hpos1, _, _⟩ :=
      readBits_advance (8 * bitsVal s.bits s.pos 9) { s with pos := s.pos + 9 }
        (by simp only; omega)
    obtain ⟨s2, hskip, hpos2, _, _⟩ :=
      skipStringLoop_advance (bitsVal s.bits s.pos 9) { s with pos := s.pos + 9 }
        (by simp only; omega)
        (by intro i hi
            exact hnz i (by omega) hi)
    simp only at hpos1 hpos2
    refine ⟨bitsVal s.bits s.pos 9, buf, s1, s2, ?_, ?_, by omega, by omega⟩
    · simp only [readStringProp, hread9]
      rw [if_neg (by omega)]
      simp only [hbits]
    · simp only [skipStringProp, hread9]
      exact hskip

/-- C1 — witness: both parts of the amended theorem applied at concrete
streams; the varint one terminates at its second byte, the string one
announces two non-NUL bytes. -/
theorem c1_read_skip_advance_agree_witness :
    (∃ v s1 s2, ({ bits := bytesBits [128, 3, 0], pos := 0, size := 24 } : bitstream).nReadVarUInt32
        = .ok (v, s1) ∧
      ({ bits := bytesBits [128, 3, 0], pos := 0, size := 24 } : bitstream).nSkipVarInt = .ok s2 ∧
      s1.pos = s2.pos ∧ s1.pos = 0 + 8 * (1 + 1)) ∧
    (∃ len buf s1 s2,
      readStringProp { bits := bytesBits [2, 2, 130, 0], pos := 0, size := 32 } = .ok (len, buf, s1) ∧
      skipStringProp { bits := bytesBits [2, 2, 130, 0], pos := 0, size := 32 } = .ok s2 ∧
      s1.pos = s2.pos ∧
      s1.pos = 0 + 9 + 8 * bitsVal (bytesBits [2, 2, 130, 0]) 0 9) := by
  constructor
  · exact c1_read_skip_advance_agree.1 { bits := bytesBits [128, 3, 0], pos := 0, size := 24 } 1
      (by decide) (by decide) (by decide) (by decide) (by decide)
  · exact c1_read_skip_advance_agree.2 { bits := bytesBits [2, 2, 130, 0], pos := 0, size := 32 }
      (by decide) (by decide) (by decide)

/-- C8 counterexample stream: the one-byte buffer [171]. -/
def c8Stream : bitstream := { bits := byteBits 171, pos := 0, size := 8 }

/-- C8 — counterexample.  On the bitstream built from the one-byte
buffer [171] (8 bits), starting at position 5, seeking forward 10 bits
clamps at the end of the stream and seeking backward 10 bits then clamps
at zero: the stream ends at position 0, not at its starting position 5.
This falsifies the claim that forward n then backward n returns to the
start for every starting position and every n. -/
theorem c8_seek_roundtrip_counterexample :
    bitstream.fromBytes [171] = .ok c8Stream ∧
    (c8Stream.seekForward 5).pos = 5 ∧
    (((c8Stream.seekForward 5).seekForward 10).seekBackward 10).pos = 0 ∧
    (0 : Nat) ≠ 5 := by
  refine ⟨rfl, rfl, ?_, by decide⟩
  rfl

/-- C8 (amended).  For a bitstream whose size fits a 65536-byte buffer,
seeking forward n bits and then backward n bits returns to the starting
position whenever the forward seek does not clamp at the end of the
stream, i.e. whenever pos + n ≤ size. -/
theorem c8_seek_roundtrip (s : bitstream) (n : Nat)
    (hsz : s.size ≤ 8 * 65536) (h : s.pos + n ≤ s.size) :
    ((s.seekForward n).seekBackward n).pos = s.pos := by
  have hszW : s.size < W64 := by unfold W64; omega
  have h1 : (s.seekForward n).pos = s.pos + n := seekForward_pos_of_le h hszW
  have hn : n % W64 = n := Nat.mod_eq_of_lt (by omega)
  have h3 : ((s.seekForward n).pos + W64 - n % W64) % W64 = s.pos := by
    rw [h1, hn]
    have he : s.pos + n + W64 - n = s.pos + W64 := by omega
    rw [he, Nat.add_mod_right]
    exact Nat.mod_eq_of_lt (by omega)
  unfold bitstream.seekBackward
  rw [h3, if_neg (by omega)]

/-- C8 — witness: the amended round trip at a concrete stream and seek
width. -/
theorem c8_seek_roundtrip_witness :
    ((({ bits := byteBits 170, pos := 2, size := 8 } : bitstream).seekForward 3).seekBackward
      3).pos = 2 :=
  c8_seek_roundtrip { bits := byteBits 170, pos := 2, size := 8 } 3 (by decide) (by decide)

/-! Sendprop descriptors (sendprop.hpp) and the property decoders of
property.cpp. -/

/-- Property type enum sendprop::type. -/
inductive PropType where
  | tInt
  | tFloat
  | tVector
  | tVectorXY
  | tString
  | tArray
  | tDataTable
  | tInt64
deriving DecidableEq, Repr

/-- SPROP flag bit masks from sendprop.hpp. -/
def SPROP_UNSIGNED : Nat := 1
def SPROP_COORD : Nat := 2
def SPROP_NOSCALE : Nat := 4
def SPROP_NORMAL : Nat := 32
def SPROP_EXCLUDE : Nat := 64
def SPROP_INSIDEARRAY : Nat := 256
def SPROP_COLLAPSIBLE : Nat := 2048
def SPROP_COORD_MP : Nat := 4096
def SPROP_COORD_MP_LOWPRECISION : Nat := 8192
def SPROP_COORD_MP_INTEGRAL : Nat := 16384
def SPROP_CELL_COORD : Nat := 32768
def SPROP_CELL_COORD_LOWPRECISION : Nat := 65536
def SPROP_CELL_COORD_INTEGRAL : Nat := 131072
def SPROP_CHANGES_OFTEN : Nat := 262144
def SPROP_ENCODED_AGAINST_TICKCOUNT : Nat := 524288

/-- A sendprop descriptor (class sendprop): the fields the decoders
consult.  arrayType is the element descriptor pointer bound by the
flattener for T_Array props (None models a null pointer). -/
inductive sendprop where
  | mk (ptype : PropType) (flags : Nat) (bits : Nat) (elements : Nat)
      (priority : Nat) (arrayType : Option sendprop)

def sendprop.getType : sendprop → PropType
  | .mk t _ _ _ _ _ => t

def sendprop.getFlags : sendprop → Nat
  | .mk _ f _ _ _ _ => f

def sendprop.getBits : sendprop → Nat
  | .mk _ _ b _ _ _ => b

def sendprop.getElements : sendprop → Nat
  | .mk _ _ _ e _ _ => e

def sendprop.getPriority : sendprop → Nat
  | .mk _ _ _ _ p _ => p

def sendprop.getArrayType : sendprop → Option sendprop
  | .mk _ _ _ _ _ a => a

/-- readInt from property.cpp.  The source tests
SPROP_ENCODED_AGAINST_TICKCOUNT twice: the inner branch distinguishing
the varint flavours repeats the outer test instead of testing
SPROP_UNSIGNED (compare readInt64, which tests SPROP_UNSIGNED there),
so the signed-varint arm is unreachable.  The embedding reproduces the
source faithfully. -/
def readInt (s : bitstream) (pr : sendprop) : Except Err (Int × bitstream) :=
  let flags := pr.getFlags
  if flags &&& SPROP_ENCODED_AGAINST_TICKCOUNT ≠ 0 then
    if flags &&& SPROP_ENCODED_AGAINST_TICKCOUNT ≠ 0 then
      match s.nReadVarUInt32 with
      | .error e => .error e
      | .ok (v, s1) => .ok ((v : Int), s1)
    else
      match s.nReadVarSInt32 with
      | .error e => .error e
      | .ok (v, s1) => .ok (v, s1)
  else
    if flags &&& SPROP_UNSIGNED ≠ 0 then
      match s.nReadUInt pr.getBits with
      | .error e => .error e
      | .ok (v, s1) => .ok ((v : Int), s1)
    else
      match s.nReadSInt pr.getBits with
      | .error e => .error e
      | .ok (v, s1) => .ok (v, s1)

/-- Modelled from the spec: the Int decode rule of section 4.4, "If
ENCODED_AGAINST_TICKCOUNT: unsigned -> varint, else zig-zag signed
varint.  Otherwise read(prop.num_bits) with signed/unsigned
interpretation per UNSIGNED".  Used to compare the source readInt with
the spec text. -/
def specReadInt (s : bitstream) (pr : sendprop) : Except Err (Int × bitstream) :=
  let flags := pr.getFlags
  if flags &&& SPROP_ENCODED_AGAINST_TICKCOUNT ≠ 0 then
    if flags &&& SPROP_UNSIGNED ≠ 0 then
      match s.nReadVarUInt32 with
      | .error e => .error e
      | .ok (v, s1) => .ok ((v : Int), s1)
    else
      match s.nReadVarSInt32 with
      | .error e => .error e
      | .ok (v, s1) => .ok (v, s1)
  else
    if flags &&& SPROP_UNSIGNED ≠ 0 then
      match s.nReadUInt pr.getBits with
      | .error e => .error e
      | .ok (v, s1) => .ok ((v : Int), s1)
    else
      match s.nReadSInt pr.getBits with
      | .error e => .error e
      | .ok (v, s1) => .ok (v, s1)

/-- A signed Int sendprop encoded against the tick count: flag bit 19
set, UNSIGNED (bit 0) clear. -/
def c3Prop : sendprop := .mk .tInt SPROP_ENCODED_AGAINST_TICKCOUNT 32 0 64 none

/-- The one-byte stream 0x01: varint value 1, zigzag value -1. -/
def c3Stream : bitstream := { bits := bytesBits [1], pos := 0, size := 8 }

/-- C3.  For an Int property with ENCODED_AGAINST_TICKCOUNT set and
UNSIGNED clear, the claim requires a zigzag-decoded signed varint, but
readInt tests ENCODED_AGAINST_TICKCOUNT a second time where it should
test UNSIGNED (compare readInt64), so it reads an unsigned varint: on
the stream 0x01 the source yields 1 where the claimed decoding yields
the zigzag value -1. -/
theorem c3_readInt_tickcount_divergence :
    readInt c3Stream c3Prop = .ok (1, { c3Stream with pos := 8 }) ∧
    specReadInt c3Stream c3Prop = .ok (-1, { c3Stream with pos := 8 }) ∧
    zigzag32 1 = -1 ∧
    ((1 : Int) ≠ -1) := by
  refine ⟨rfl, ?_, by decide, by decide⟩
  rfl

/-- Protobuf zigzag decoding of a 64-bit unsigned value. -/
def zigzag64 (v : Nat) : Int :=
  if v % 2 = 0 then (v / 2 : Nat) else -((v / 2 : Nat) : Int) - 1

/-- bitstream::nReadVarSInt64. -/
def bitstream.nReadVarSInt64 (s : bitstream) : Except Err (Int × bitstream) :=
  match s.nReadVarUInt64 with
  | .error e => .error e
  | .ok (v, s1) => .ok (zigzag64 v, s1)

/-- bitstream::nReadNormal: 1 sign bit and NORMAL_FRACTION_BITS = 11
fraction bits.  Only the stream advance is tracked. -/
def bitstream.nReadNormal (s : bitstream) : Except Err bitstream := do
  let (_, s) ← s.read 1
  let (_, s) ← s.read 11
  pure s

/-- bitstream::nReadCoord: present-int bit, present-frac bit, then (if
either is set) a sign bit, 14 integer bits when the int bit is set and
5 fraction bits when the frac bit is set. -/
def bitstream.nReadCoord (s : bitstream) : Except Err bitstream := do
  let (intval, s) ← s.read 1
  let (fractval, s) ← s.read 1
  if intval ≠ 0 || fractval ≠ 0 then
    let (_, s) ← s.read 1
    let s ← (if intval ≠ 0 then do
        let (_, s1) ← s.read 14
        pure s1
      else pure s)
    let s ← (if fractval ≠ 0 then do
        let (_, s1) ← s.read 5
        pure s1
      else pure s)
    pure s
  else
    pure s

/-- Bit-count table of bitstream::nReadCoordMp, indexed by
(flags and 3) + lowPrecision*4: fraction bits 5 (or 3 low precision),
plus 14 or 11 integer bits for the intval cases. -/
def mpBitsTable : Nat → Nat
  | 0 => 5
  | 1 => 5
  | 2 => 19
  | 3 => 16
  | 4 => 3
  | 5 => 3
  | 6 => 17
  | _ => 14

/-- bitstream::nReadCoordMp: 3 flag bits when integral else 2; in the
integral intval case 11+1 or 14+1 value bits, otherwise the table
lookup.  Only the stream advance is tracked. -/
def bitstream.nReadCoordMp (s : bitstream) (integral lowPrecision : Bool) :
    Except Err bitstream := do
  let (flags, s) ← (if integral then s.read 3 else s.read 2)
  if integral then
    if flags &&& 2 ≠ 0 then do
      let (_, s1) ← s.read (if flags &&& 1 ≠ 0 then 12 else 15)
      pure s1
    else pure s
  else do
    let (_, s1) ← s.read (mpBitsTable ((flags &&& 3) + (if lowPrecision then 4 else 0)))
    pure s1

/-- bitstream::nReadCellCoord: n raw bits, plus 3 or 5 fraction bits in
the non-integral case.  Only the stream advance is tracked. -/
def bitstream.nReadCellCoord (s : bitstream) (n : Nat) (integral lowPrecision : Bool) :
    Except Err bitstream := do
  let (_, s) ← s.read n
  if integral then pure s
  else do
    let (_, s1) ← s.read (if lowPrecision then 3 else 5)
    pure s1

/-- readFloat from property.cpp: first matching flag wins in the order
COORD, COORD_MP, NOSCALE, NORMAL, CELL_COORD*, else num_bits raw bits.
Only the stream advance is tracked (float arithmetic is not modelled). -/
def readFloat (s : bitstream) (pr : sendprop) : Except Err bitstream :=
  let flags := pr.getFlags
  if flags &&& SPROP_COORD ≠ 0 then s.nReadCoord
  else if flags &&& SPROP_COORD_MP ≠ 0 then
    s.nReadCoordMp (flags &&& SPROP_COORD_MP_INTEGRAL ≠ 0)
      (flags &&& SPROP_COORD_MP_LOWPRECISION ≠ 0)
  else if flags &&& SPROP_NOSCALE ≠ 0 then do
    let (_, s1) ← s.read 32
    pure s1
  else if flags &&& SPROP_NORMAL ≠ 0 then s.nReadNormal
  else if flags &&& SPROP_CELL_COORD ≠ 0 || flags &&& SPROP_CELL_COORD_INTEGRAL ≠ 0 ||
      flags &&& SPROP_CELL_COORD_LOWPRECISION ≠ 0 then
    s.nReadCellCoord pr.getBits (flags &&& SPROP_CELL_COORD_INTEGRAL ≠ 0)
      (flags &&& SPROP_CELL_COORD_LOWPRECISION ≠ 0)
  else do
    let (_, s1) ← s.read pr.getBits
    pure s1

/-- readVector from property.cpp: X and Y as floats, then either one
sign bit (NORMAL, Z is reconstructed) or Z as a float. -/
def readVector (s : bitstream) (pr : sendprop) : Except Err bitstream := do
  let s ← readFloat s pr
  let s ← readFloat s pr
  if pr.getFlags &&& SPROP_NORMAL ≠ 0 then do
    let (_, s1) ← s.read 1
    pure s1
  else readFloat s pr

/-- readVectorXY from property.cpp: X and Y as floats. -/
def readVectorXY (s : bitstream) (pr : sendprop) : Except Err bitstream := do
  let s ← readFloat s pr
  readFloat s pr

/-- readInt64 from property.cpp.  In the non-varint signed case the
source computes sbits = num_bits - 32 (and one fewer after consuming
the sign bit) in size_t arithmetic, so num_bits below 32 wraps to a
huge read that overflows. -/
def readInt64 (s : bitstream) (pr : sendprop) : Except Err bitstream :=
  let flags := pr.getFlags
  if flags &&& SPROP_ENCODED_AGAINST_TICKCOUNT ≠ 0 then
    if flags &&& SPROP_UNSIGNED ≠ 0 then
      match s.nReadVarUInt64 with
      | .error e => .error e
      | .ok (_, s1) => .ok s1
    else
      match s.nReadVarSInt64 with
      | .error e => .error e
      | .ok (_, s1) => .ok s1
  else do
    let sbits := (pr.getBits + W64 - 32) % W64
    if flags &&& SPROP_UNSIGNED ≠ 0 then do
      let (_, s1) ← s.read 32
      let (_, s2) ← s1.read sbits
      pure s2
    else do
      let (_, s1) ← s.read 1
      let (_, s2) ← s1.read 32
      let (_, s3) ← s2.read ((sbits + W64 - 1) % W64)
      pure s3

/-- The bit-count loop shared by readArray and skipArray: while
(elements) do bits++, elements >>= 1.  The fuel argument only serves
structural recursion; n halves to 0 well within n steps. -/
def bitWidthAux : Nat → Nat → Nat
  | 0, _ => 0
  | fuel + 1, n => if n = 0 then 0 else bitWidthAux fuel (n / 2) + 1

/-- Number of bits the array count is read with. -/
def bitWidth (n : Nat) : Nat := bitWidthAux n n

mutual

/-- property::create / property::update dispatch on the sendprop type
(property.cpp).  Only the stream advance is tracked; T_DataTable falls
into the default case, which throws propertyInvalidType. -/
def decodeProp (s : bitstream) (pr : sendprop) : Except Err bitstream :=
  match pr.getType with
  | .tInt =>
    match readInt s pr with
    | .error e => .error e
    | .ok (_, s1) => .ok s1
  | .tFloat => readFloat s pr
  | .tVector => readVector s pr
  | .tVectorXY => readVectorXY s pr
  | .tString =>
    match readStringProp s with
    | .error e => .error e
    | .ok (_, _, s1) => .ok s1
  | .tArray => readArray s pr
  | .tInt64 => readInt64 s pr
  | .tDataTable => .error .propertyInvalidType
termination_by (sizeOf pr, 1, 0)

/-- readArray from property.cpp: the count is read with bitWidth
(getElements) bits, counts over PROPERTY_MAX_ELEMENTS = 100 fail, and
count elements are decoded with the bound element descriptor.  A null
element pointer (never present after flattening) is modelled as the
invalidArrayProp error. -/
def readArray (s : bitstream) (pr : sendprop) : Except Err bitstream :=
  match s.read (bitWidth pr.getElements) with
  | .error e => .error e
  | .ok (count, s1) =>
    if count > 100 then .error .propertyInvalidNumberOfElements
    else
      match pr with
      | .mk _ _ _ _ _ none => .error .invalidArrayProp
      | .mk _ _ _ _ _ (some aType) => decodeN count aType s1
termination_by (sizeOf pr, 0, 0)

/-- The element loop of readArray: count decodes with the element
descriptor. -/
def decodeN (count : Nat) (pr : sendprop) (s : bitstream) : Except Err bitstream :=
  match count with
  | 0 => .ok s
  | c + 1 =>
    match decodeProp s pr with
    | .error e => .error e
    | .ok s1 => decodeN c pr s1
termination_by (sizeOf pr, 2, count)

end

theorem bitWidthAux_zero (fuel : Nat) : bitWidthAux fuel 0 = 0 := by
  cases fuel <;> simp [bitWidthAux]

theorem bitWidthAux_eq_log2 :
    ∀ (fuel n : Nat), 0 < n → n ≤ fuel → bitWidthAux fuel n = Nat.log2 n + 1 := by
  intro fuel
  induction fuel with
  | zero => intro n h1 h2; omega
  | succ f ih =>
    intro n h1 h2
    rw [bitWidthAux, if_neg (by omega)]
    by_cases h4 : n ≥ 2
    · rw [ih (n / 2) (by omega) (by omega)]
      conv_rhs => rw [Nat.log2]
      rw [if_pos h4]
    · have hn : n = 1 := by omega
      subst hn
      rw [bitWidthAux_zero]
      conv_rhs => rw [Nat.log2]
      norm_num

/-- The source count-width loop computes floor(log2 n) + 1, the bit
length of n, for positive n. -/
theorem bitWidth_eq_log2 (n : Nat) (h : 0 < n) : bitWidth n = Nat.log2 n + 1 :=
  bitWidthAux_eq_log2 n n h (le_refl n)

/-- C7 counterexample array prop: 5 elements, Int element descriptor. -/
def c7Prop : sendprop := .mk .tArray 0 0 5 64 (some (.mk .tInt 1 8 0 64 none))

/-- A three-bit stream of zeroes. -/
def c7Stream : bitstream := { bits := [false, false, false], pos := 0, size := 3 }

/-- C7 — counterexample.  For an Array prop with num_elements = 5 the
claim prescribes ceil(log2 5) + 1 = 4 bits for the element count, but
the source loop computes floor(log2 5) + 1 = 3 bits: on a stream of
exactly 3 zero bits the decode succeeds, consuming 3 bits (count 0, no
elements), where a 4-bit count read would overflow the stream. -/
theorem c7_array_count_bits_counterexample :
    bitWidth 5 = 3 ∧ Nat.clog 2 5 + 1 = 4 ∧ (3 : Nat) ≠ 4 ∧
    readArray c7Stream c7Prop = .ok { c7Stream with pos := 3 } := by
  refine ⟨by decide, ?_, by decide, ?_⟩
  · rw [Nat.clog_of_two_le (by norm_num) (by norm_num)]
    norm_num
    rw [Nat.clog_of_two_le (by norm_num) (by norm_num)]
    norm_num
    rw [Nat.clog_eq_one (by norm_num) (by norm_num)]
  · rw [readArray]
    have hr : c7Stream.read (bitWidth c7Prop.getElements) =
        .ok (0, { c7Stream with pos := 3 }) := by rfl
    rw [hr]
    norm_num
    rw [show c7Prop = sendprop.mk .tArray 0 0 5 64 (some (.mk .tInt 1 8 0 64 none)) from rfl]
    show decodeN 0 (.mk .tInt 1 8 0 64 none)
        { bits := c7Stream.bits, pos := 3, size := c7Stream.size } =
      Except.ok { bits := c7Stream.bits, pos := 3, size := c7Stream.size }
    rw [decodeN.eq_def]

/-- C7 (amended).  Decoding an Array property with num_elements > 0
reads exactly floor(log2 num_elements) + 1 bits as the element count C
(the claim says ceil(log2 num_elements) + 1, which differs whenever
num_elements is not a power of two), fails with
propertyInvalidNumberOfElements when C exceeds 100, and otherwise
decodes exactly C elements with the bound element-prop descriptor. -/
theorem c7_readArray_characterization (s : bitstream) (t : PropType)
    (f b e p : Nat) (aType : sendprop) (he : 0 < e) :
    readArray s (.mk t f b e p (some aType)) =
      match s.read (Nat.log2 e + 1) with
      | .error er => .error er
      | .ok (count, s1) =>
        if count > 100 then .error .propertyInvalidNumberOfElements
        else decodeN count aType s1 := by
  rw [readArray]
  have hw : bitWidth (sendprop.mk t f b e p (some aType)).getElements = Nat.log2 e + 1 := by
    simp only [sendprop.getElements]
    exact bitWidth_eq_log2 e he
  rw [hw]

/-- C7 — witness: the characterization applied at the 5-element array
prop on the three-zero-bit stream. -/
theorem c7_readArray_characterization_witness :
    readArray c7Stream (.mk .tArray 0 0 5 64 (some (.mk .tInt 1 8 0 64 none))) =
      match c7Stream.read (Nat.log2 5 + 1) with
      | .error er => .error er
      | .ok (count, s1) =>
        if count > 100 then .error .propertyInvalidNumberOfElements
        else decodeN count (.mk .tInt 1 8 0 64 none) s1 :=
  c7_readArray_characterization c7Stream .tArray 0 0 5 64 (.mk .tInt 1 8 0 64 none) (by decide)

/-! Entity header decoding (entity.cpp readHeader) and the
PacketEntities id guard (parser.cpp handleEntity). -/

/-- Entity states distinguished by entity::readHeader. -/
inductive EntState where
  | state_default
  | state_created
  | state_updated
  | state_deleted
deriving DecidableEq, Repr

/-- The increment part of entity::readHeader: 6 bits, then depending on
the two bits under mask 0x30, 4, 8 or 28 further bits combined as
(nId and 15) or (extra shl 4). -/
def readHeaderInc (s : bitstream) : Except Err (Nat × bitstream) := do
  let (v, s) ← s.read 6
  if v &&& 48 = 16 then do
    let (e, s1) ← s.read 4
    pure ((v &&& 15) ||| (e <<< 4), s1)
  else if v &&& 48 = 32 then do
    let (e, s1) ← s.read 8
    pure ((v &&& 15) ||| (e <<< 4), s1)
  else if v &&& 48 = 48 then do
    let (e, s1) ← s.read 28
    pure ((v &&& 15) ||| (e <<< 4), s1)
  else pure (v, s)

/-- The state part of entity::readHeader: two sequential one-bit reads,
the second interpreted under the first. -/
def readHeaderState (newId : Nat) (s : bitstream) : Except Err (Nat × EntState × bitstream) := do
  let (b1, s) ← s.read 1
  if b1 = 0 then do
    let (b2, s1) ← s.read 1
    if b2 ≠ 0 then pure (newId, .state_created, s1) else pure (newId, .state_updated, s1)
  else do
    let (b2, s1) ← s.read 1
    if b2 ≠ 0 then pure (newId, .state_deleted, s1) else pure (newId, .state_default, s1)

/-- entity::readHeader: decode the increment, set id += nId + 1 in
uint32 arithmetic, then read the state bits. -/
def readHeader (id : Nat) (s : bitstream) : Except Err (Nat × EntState × bitstream) := do
  let (nId, s) ← readHeaderInc s
  readHeaderState ((id + nId + 1) % W32) s

/-- Modelled from the spec: the claimed 0x10-case combination
"(6low | shl 4) yielding a 10-bit increment" keeps all six low bits of
the first read.  Used to compare the source combination against the
claim. -/
def specHeaderInc10 (v e : Nat) : Nat := v ||| (e <<< 4)

/-- C4 counterexample stream: 6 bits encoding 16 (case 0x10), 4 extra
zero bits, two zero state bits. -/
def c4Stream : bitstream :=
  { bits := [false, false, false, false, true, false] ++
      [false, false, false, false] ++ [false, false],
    pos := 0, size := 12 }

/-- C4 — counterexample.  On the header whose 6-bit field is 16 (case
0x10) with four extra zero bits, the source increment is
(16 and 15) or (0 shl 4) = 0: starting from id 0 the decoded id is
0 + 0 + 1 = 1.  The claimed combination keeping all 6 low bits gives
increment 16, so the claim predicts id 17: the 0x10 case keeps only 4
of the first 6 bits and yields an 8-bit increment, not a 10-bit one. -/
theorem c4_header_inc_counterexample :
    readHeader 0 c4Stream = .ok (1, .state_updated, { c4Stream with pos := 12 }) ∧
    specHeaderInc10 16 0 = 16 ∧
    (0 + 16 + 1) % W32 = 17 ∧
    (1 : Nat) ≠ 17 := by
  refine ⟨rfl, by decide, ?_, by decide⟩
  rfl

theorem bitsVal_lt (bits : List Bool) : ∀ (n p : Nat), bitsVal bits p n < 2 ^ n := by
  intro n
  induction n with
  | zero => intro p; simp [bitsVal]
  | succ m ih =>
    intro p
    have h := ih (p + 1)
    simp only [bitsVal]
    by_cases hb : bitAt bits p = true <;> simp [hb, pow_succ] <;> omega

theorem readHeaderState_ok (newId : Nat) (s : bitstream) (h : s.pos + 2 ≤ s.size) :
    ∃ st, readHeaderState newId s = .ok (newId, st, { s with pos := s.pos + 2 }) := by
  have h1 : s.read 1 = .ok (bitsVal s.bits s.pos 1, { s with pos := s.pos + 1 }) :=
    read_eq_ok (by omega) (by omega)
  have h2 : ({ s with pos := s.pos + 1 } : bitstream).read 1 =
      .ok (bitsVal s.bits (s.pos + 1) 1, { s with pos := s.pos + 1 + 1 }) := by
    have := read_eq_ok (s := { s with pos := s.pos + 1 }) (n := 1) (by simp; omega) (by omega)
    simpa using this
  have hs : ({ s with pos := s.pos + 1 + 1 } : bitstream) = { s with pos := s.pos + 2 } := rfl
  simp only [readHeaderState, h1, h2, hs, bind, Except.bind]
  by_cases hb1 : bitsVal s.bits s.pos 1 = 0
  · by_cases hb2 : bitsVal s.bits (s.pos + 1) 1 ≠ 0
    · exact ⟨.state_created, by simp [hb1, hb2, pure, Except.pure]⟩
    · exact ⟨.state_updated, by simp [hb1, hb2, pure, Except.pure]⟩
  · by_cases hb2 : bitsVal s.bits (s.pos + 1) 1 ≠ 0
    · exact ⟨.state_deleted, by simp [hb1, hb2, pure, Except.pure]⟩
    · exact ⟨.state_default, by simp [hb1, hb2, pure, Except.pure]⟩

/-- C4 (amended).  The entity header reads 6 bits v and then, per the
two bits under mask 0x30, 0, 4, 8 or 28 further bits e, combined into
the increment (v and 15) or (e shl 4) (just v in the 0-case, whose top
two bits are clear): the increment has at most 4, 8, 12 or 32
significant bits respectively — in particular the 0x10 case yields an
8-bit increment, not a 10-bit one.  The new id is id + increment + 1
in uint32 arithmetic, so a packet starting from id = -1 (that is,
2^32 - 1) decodes its first id as exactly the increment. -/
theorem c4_readHeader_characterization (id : Nat) (s : bitstream)
    (hroom : s.pos + 36 ≤ s.size) :
    ∃ inc st s', readHeader id s = .ok ((id + inc + 1) % W32, st, s') ∧
      inc < W32 ∧
      (let v := bitsVal s.bits s.pos 6;
        (v &&& 48 = 0 → inc = v ∧ inc < 16) ∧
        (v &&& 48 = 16 → inc = (v &&& 15) ||| (bitsVal s.bits (s.pos + 6) 4 <<< 4) ∧ inc < 256) ∧
        (v &&& 48 = 32 → inc = (v &&& 15) ||| (bitsVal s.bits (s.pos + 6) 8 <<< 4) ∧ inc < 4096) ∧
        (v &&& 48 = 48 →
          inc = (v &&& 15) ||| (bitsVal s.bits (s.pos + 6) 28 <<< 4) ∧ inc < W32)) ∧
      ((W32 - 1) + inc + 1) % W32 = inc := by
  have hv48 : ∀ v : Nat, v < 64 → v &&& 48 = 0 ∨ v &&& 48 = 16 ∨ v &&& 48 = 32 ∨ v &&& 48 = 48 :=
    by decide
  have hv15 : ∀ v : Nat, v < 64 → v &&& 15 < 16 := by decide
  have hread6 : s.read 6 = .ok (bitsVal s.bits s.pos 6, { s with pos := s.pos + 6 }) :=
    read_eq_ok (by omega) (by omega)
  set v := bitsVal s.bits s.pos 6 with hvdef
  have hvlt : v < 64 := bitsVal_lt s.bits 6 s.pos
  have hW : (4096 : Nat) < W32 := by norm_num [W32]
  have hself : ∀ inc : Nat, inc < W32 → ((W32 - 1) + inc + 1) % W32 = inc := by
    intro inc hinc
    have h1W : 1 ≤ W32 := by omega
    have he : (W32 - 1) + inc + 1 = inc + W32 := by omega
    rw [he, Nat.add_mod_right, Nat.mod_eq_of_lt hinc]
  rcases hv48 v hvlt with h48 | h48 | h48 | h48
  · -- no extra bits
    obtain ⟨st, hst⟩ := readHeaderState_ok ((id + v + 1) % W32) { s with pos := s.pos + 6 }
      (by simp only; omega)
    refine ⟨v, st, { s with pos := s.pos + 6 + 2 }, ?_, by omega, ?_, hself v (by omega)⟩
    · simp only [readHeader, readHeaderInc, hread6, bind, Except.bind, h48]
      norm_num
      exact hst
    · refine ⟨fun _ => ⟨rfl, ?_⟩, fun hc => absurd h48 (by omega), fun hc => absurd h48 (by omega),
        fun hc => absurd h48 (by omega)⟩
      have hz : ∀ w : Nat, w < 64 → w &&& 48 = 0 → w < 16 := by decide
      exact hz v hvlt h48
  · -- 4 extra bits
    have hread4 : ({ s with pos := s.pos + 6 } : bitstream).read 4 =
        .ok (bitsVal s.bits (s.pos + 6) 4, { s with pos := s.pos + 6 + 4 }) := by
      have := read_eq_ok (s := { s with pos := s.pos + 6 }) (n := 4) (by simp; omega) (by omega)
      simpa using this
    have hinclt : (v &&& 15) ||| (bitsVal s.bits (s.pos + 6) 4 <<< 4) < 256 := by
      have h1 : v &&& 15 < 256 := by have := hv15 v hvlt; omega
      have h2 : bitsVal s.bits (s.pos + 6) 4 <<< 4 < 256 := by
        have := bitsVal_lt s.bits 4 (s.pos + 6)
        rw [Nat.shiftLeft_eq]
        norm_num
        omega
      exact Nat.or_lt_two_pow (n := 8) h1 h2
    obtain ⟨st, hst⟩ := readHeaderState_ok
      ((id + ((v &&& 15) ||| (bitsVal s.bits (s.pos + 6) 4 <<< 4)) + 1) % W32)
      { s with pos := s.pos + 6 + 4 } (by simp only; omega)
    refine ⟨(v &&& 15) ||| (bitsVal s.bits (s.pos + 6) 4 <<< 4), st,
      { s with pos := s.pos + 6 + 4 + 2 }, ?_, by unfold W32; omega, ?_,
      hself _ (by unfold W32; omega)⟩
    · simp only [readHeader, readHeaderInc, hread6, bind, Except.bind, h48]
      norm_num
      simp only [hread4, Except.bind]
      exact hst
    · exact ⟨fun hc => absurd h48 (by omega), fun _ => ⟨rfl, hinclt⟩,
        fun hc => absurd h48 (by omega), fun hc => absurd h48 (by omega)⟩
  · -- 8 extra bits
    have hread8 : ({ s with pos := s.pos + 6 } : bitstream).read 8 =
        .ok (bitsVal s.bits (s.pos + 6) 8, { s with pos := s.pos + 6 + 8 }) := by
      have := read_eq_ok (s := { s with pos := s.pos + 6 }) (n := 8) (by simp; omega) (by omega)
      simpa using this
    have hinclt : (v &&& 15) ||| (bitsVal s.bits (s.pos + 6) 8 <<< 4) < 4096 := by
      have h1 : v &&& 15 < 4096 := by have := hv15 v hvlt; omega
      have h2 : bitsVal s.bits (s.pos + 6) 8 <<< 4 < 4096 := by
        have := bitsVal_lt s.bits 8 (s.pos + 6)
        rw [Nat.shiftLeft_eq]
        norm_num
        omega
      exact Nat.or_lt_two_pow (n := 12) h1 h2
    obtain ⟨st, hst⟩ := readHeaderState_ok
      ((id + ((v &&& 15) ||| (bitsVal s.bits (s.pos + 6) 8 <<< 4)) + 1) % W32)
      { s with pos := s.pos + 6 + 8 } (by simp only; omega)
    refine ⟨(v &&& 15) ||| (bitsVal s.bits (s.pos + 6) 8 <<< 4), st,
      { s with pos := s.pos + 6 + 8 + 2 }, ?_, by unfold W32; omega, ?_,
      hself _ (by unfold W32; omega)⟩
    · simp only [readHeader, readHeaderInc, hread6, bind, Except.bind, h48]
      norm_num
      simp only [hread8, Except.bind]
      exact hst
    · exact ⟨fun hc => absurd h48 (by omega), fun hc => absurd h48 (by omega),
        fun _ => ⟨rfl, hinclt⟩, fun hc => absurd h48 (by omega)⟩
  · -- 28 extra bits
    have hread28 : ({ s with pos := s.pos + 6 } : bitstream).read 28 =
        .ok (bitsVal s.bits (s.pos + 6) 28, { s with pos := s.pos + 6 + 28 }) := by
      have := read_eq_ok (s := { s with pos := s.pos + 6 }) (n := 28) (by simp; omega) (by omega)
      simpa using this
    have hinclt : (v &&& 15) ||| (bitsVal s.bits (s.pos + 6) 28 <<< 4) < W32 := by
      have h1 : v &&& 15 < W32 := by have := hv15 v hvlt; unfold W32; omega
      have h2 : bitsVal s.bits (s.pos + 6) 28 <<< 4 < W32 := by
        have := bitsVal_lt s.bits 28 (s.pos + 6)
        rw [Nat.shiftLeft_eq]
        unfold W32
        norm_num
        omega
      exact Nat.or_lt_two_pow (n := 32) h1 h2
    obtain ⟨st, hst⟩ := readHeaderState_ok
      ((id + ((v &&& 15) ||| (bitsVal s.bits (s.pos + 6) 28 <<< 4)) + 1) % W32)
      { s with pos := s.pos + 6 + 28 } (by simp only; omega)
    refine ⟨(v &&& 15) ||| (bitsVal s.bits (s.pos + 6) 28 <<< 4), st,
      { s with pos := s.pos + 6 + 28 + 2 }, ?_, hinclt, ?_, hself _ hinclt⟩
    · simp only [readHeader, readHeaderInc, hread6, bind, Except.bind, h48]
      norm_num
      simp only [hread28, Except.bind]
      exact hst
    · exact ⟨fun hc => absurd h48 (by omega), fun hc => absurd h48 (by omega),
        fun hc => absurd h48 (by omega), fun _ => ⟨rfl, hinclt⟩⟩

/-- C4 — witness: the characterization applied to the counterexample
stream padded to 36 available bits. -/
theorem c4_readHeader_characterization_witness :
    ∃ inc st s',
      readHeader 5 { bits := bytesBits [16, 0, 0, 0, 0], pos := 0, size := 40 } =
        .ok ((5 + inc + 1) % W32, st, s') ∧
      inc < W32 ∧
      (let v := bitsVal (bytesBits [16, 0, 0, 0, 0]) 0 6;
        (v &&& 48 = 0 → inc = v ∧ inc < 16) ∧
        (v &&& 48 = 16 →
          inc = (v &&& 15) ||| (bitsVal (bytesBits [16, 0, 0, 0, 0]) 6 4 <<< 4) ∧ inc < 256) ∧
        (v &&& 48 = 32 →
          inc = (v &&& 15) ||| (bitsVal (bytesBits [16, 0, 0, 0, 0]) 6 8 <<< 4) ∧ inc < 4096) ∧
        (v &&& 48 = 48 →
          inc = (v &&& 15) ||| (bitsVal (bytesBits [16, 0, 0, 0, 0]) 6 28 <<< 4) ∧ inc < W32)) ∧
      ((W32 - 1) + inc + 1) % W32 = inc :=
  c4_readHeader_characterization 5 { bits := bytesBits [16, 0, 0, 0, 0], pos := 0, size := 40 }
    (by decide)

/-- DOTA_MAX_ENTITIES from entity.hpp: 0x3FFF = 16383.  The parser
resizes its entity vector to exactly this many slots. -/
def DOTA_MAX_ENTITIES : Nat := 16383

/-- The per-update head of parser::handleEntity: decode the header,
apply the guard (eId > DOTA_MAX_ENTITIES fails with entityIdToLarge),
then access entities[eId].  The entity vector has DOTA_MAX_ENTITIES
slots, so an access at an index not below that size is an out-of-bounds
operator[] on a std::vector: modelled as undefinedBehavior. -/
def handleEntityStep {α : Type} (entities : List α) (prevId : Nat) (s : bitstream) :
    Except Err (Nat × EntState × α × bitstream) := do
  let (eId, ty, s1) ← readHeader prevId s
  if eId > DOTA_MAX_ENTITIES then .error .entityIdTooLarge
  else
    match entities.get? eId with
    | none => .error .undefinedBehavior
    | some ent => .ok (eId, ty, ent, s1)

/-- C5 failing stream: a header encoding increment 16383 (six 1-bits,
case 0x30, then 28 bits with value 1023) and two zero state bits, so
the first id decoded from the per-packet start id -1 is 16383. -/
def c5Stream : bitstream :=
  { bits := List.replicate 16 true ++ List.replicate 18 false ++ [false, false],
    pos := 0, size := 36 }

/-- C5.  The decoded entity id 16383 is outside [0, 16383), so per the
claim the parse must fail with EntityIdTooLarge before the entity store
is touched; but the source guard is eId > DOTA_MAX_ENTITIES, which
admits eId = 16383, and the entity vector holds exactly
DOTA_MAX_ENTITIES = 16383 slots, so entities[16383] is an out-of-bounds
access: the guard admits an id equal to the store capacity. -/
theorem c5_entity_id_guard_off_by_one :
    readHeader (W32 - 1) c5Stream =
      .ok (16383, .state_updated, { c5Stream with pos := 36 }) ∧
    (decide (16383 > DOTA_MAX_ENTITIES) = false) ∧
    (List.replicate DOTA_MAX_ENTITIES ()).get? 16383 = none ∧
    handleEntityStep (List.replicate DOTA_MAX_ENTITIES ()) (W32 - 1) c5Stream =
      .error .undefinedBehavior := by
  have h1 : readHeader (W32 - 1) c5Stream =
      .ok (16383, .state_updated, { c5Stream with pos := 36 }) := by rfl
  have h2 : (List.replicate DOTA_MAX_ENTITIES ()).get? 16383 = none := by
    rw [List.get?_eq_none, List.length_replicate]
    norm_num [DOTA_MAX_ENTITIES]
  refine ⟨h1, by decide, h2, ?_⟩
  simp only [handleEntityStep, h1, bind, Except.bind]
  rw [if_neg (by norm_num [DOTA_MAX_ENTITIES]), h2]

/-! Entity field updates (entity.cpp updateFromBitstream). -/

/-- readFieldId from entity.cpp: one continuation bit, then either a
step of one or a varint jump; the varint value 0x3FFF ends the field
list.  fieldId arithmetic is uint32 (the loop starts it at -1). -/
def readFieldId (s : bitstream) (fieldId : Nat) : Except Err (Option Nat × bitstream) := do
  let (b, s) ← s.read 1
  if b ≠ 0 then pure (some ((fieldId + 1) % W32), s)
  else do
    let (v, s) ← s.nReadVarUInt32
    if v = 16383 then pure (none, s)
    else pure (some ((fieldId + v + 1) % W32), s)

/-- The field-collection loop of entity::updateFromBitstream.  The fuel
only bounds the source while loop, which reads at least one bit per
iteration. -/
def collectFieldsAux : Nat → Nat → bitstream → Except Err (List Nat × bitstream)
  | 0, _, _ => .error .noFuel
  | fuel + 1, fieldId, s =>
    match readFieldId s fieldId with
    | .error e => .error e
    | .ok (none, s1) => .ok ([], s1)
    | .ok (some f, s1) =>
      match collectFieldsAux fuel f s1 with
      | .error e => .error e
      | .ok (fs, s2) => .ok (f :: fs, s2)

/-- Collect the field ids of one entity update, starting from
fieldId = -1 (uint32). -/
def collectFields (s : bitstream) : Except Err (List Nat × bitstream) :=
  collectFieldsAux (s.size + 1 - s.pos) (W32 - 1) s

/-- The per-field body of entity::updateFromBitstream.  props models
the entity property vector (None is an uninitialized slot, Some sp a
property created from descriptor sp); flat models
flatsendtable::properties.  A field id at least props.length throws
entityUnknownSendprop; otherwise an uninitialized slot is created from
flat-properties[it], an access the source performs without any bounds
check against flat (modelled as undefinedBehavior when out of range). -/
def updateFields (flat : List sendprop) :
    List Nat → List (Option sendprop) → bitstream →
      Except Err (List (Option sendprop) × bitstream)
  | [], props, s => .ok (props, s)
  | f :: fs, props, s =>
    if f ≥ props.length then .error .entityUnknownSendprop
    else
      match props.get? f with
      | some (some sp) =>
        match decodeProp s sp with
        | .error e => .error e
        | .ok s1 => updateFields flat fs props s1
      | some none =>
        match flat.get? f with
        | none => .error .undefinedBehavior
        | some sp =>
          match decodeProp s sp with
          | .error e => .error e
          | .ok s1 => updateFields flat fs (props.set f (some sp)) s1
      | none => .error .undefinedBehavior

/-- entity::updateFromBitstream: collect the field ids, then decode
each field. -/
def updateFromBitstream (flat : List sendprop) (props : List (Option sendprop))
    (s : bitstream) : Except Err (List (Option sendprop) × bitstream) :=
  match collectFields s with
  | .error e => .error e
  | .ok (fields, s1) => updateFields flat fields props s1

/-- The property vector of a fresh entity: the entity constructor
resizes it to flat.properties.size() + 1 uninitialized slots. -/
def entityProps (flat : List sendprop) : List (Option sendprop) :=
  List.replicate (flat.length + 1) none

/-- C6 element descriptor: an unsigned 8-bit Int property. -/
def c6Prop : sendprop := .mk .tInt 1 8 0 64 none

/-- C6 failing stream: one field-id entry with varint jump 1 (field id
1), then the 0x3FFF terminator. -/
def c6Stream : bitstream :=
  { bits := [false] ++ byteBits 1 ++ [false] ++ byteBits 255 ++ byteBits 127,
    pos := 0, size := 26 }

/-- C6.  For a flat table with one property the entity vector has two
slots, so the guard it >= properties.size() admits field id 1 =
F.properties.len(); the claim requires UnknownSendprop for any field id
not strictly below F.properties.len(), but the source instead reaches
flat->properties[1], an out-of-bounds read of the flat table. -/
theorem c6_field_id_guard_off_by_one :
    collectFields c6Stream = .ok ([1], { c6Stream with pos := 26 }) ∧
    (entityProps [c6Prop]).length = 2 ∧
    ([c6Prop] : List sendprop).length = 1 ∧
    updateFromBitstream [c6Prop] (entityProps [c6Prop]) c6Stream =
      .error .undefinedBehavior ∧
    Err.undefinedBehavior ≠ Err.entityUnknownSendprop := by
  exact ⟨rfl, rfl, rfl, rfl, by decide⟩

/-! The sendtable flattener priority sort (parser.cpp
flattenSendtables, lines 583-601). -/

/-- A gathered property as the prioritizer sees it: its sendprop
priority, its CHANGES_OFTEN flag, and its index in the gathered
(pre-sort) list. -/
structure FProp where
  prio : Nat
  changesOften : Bool
  idx : Nat
deriving DecidableEq, Repr

/-- The partition condition of the sort pass: priority equal to the
current pass priority, or CHANGES_OFTEN set while the pass priority is
64. -/
def matchesAt (p : Nat) (x : FProp) : Bool :=
  (x.prio == p) || (x.changesOften && p == 64)

/-- One std::swap step of the in-place partition pass, as it acts on
(prefix of collected properties, scanned-but-uncollected properties):
a matching property is swapped to the end of the collected prefix,
which sends the front uncollected property to the current cursor, the
back of the uncollected region. -/
def passStep (p : Nat) : (List FProp × List FProp) → FProp → (List FProp × List FProp)
  | (m, mid), x =>
    if matchesAt p x then
      match mid with
      | [] => (m ++ [x], [])
      | y :: ys => (m ++ [x], ys ++ [y])
    else (m, mid ++ [x])

/-- One full partition pass over the unsorted suffix. -/
def partitionPass (p : Nat) (l : List FProp) : List FProp × List FProp :=
  l.foldl (passStep p) ([], [])

/-- The passes in ascending priority order; each pass's collected
prefix is final, the uncollected region feeds the next pass. -/
def partitionPasses : List Nat → List FProp → List FProp
  | [], l => l
  | p :: ps, l => (partitionPass p l).1 ++ partitionPasses ps (partitionPass p l).2

/-- Largest priority occurring, floored to 64: an upper bound for the
members of the std::set of priorities. -/
def maxPrio (l : List FProp) : Nat := l.foldr (fun x acc => max x.prio acc) 64

/-- The std::set of priorities ({64} plus every occurring priority),
iterated in ascending order. -/
def prioritiesList (l : List FProp) : List Nat :=
  (List.range (maxPrio l + 1)).filter (fun p => p == 64 || l.any (fun x => x.prio == p))

/-- The whole prioritization step of parser::flattenSendtables. -/
def flattenSort (l : List FProp) : List FProp :=
  partitionPasses (prioritiesList l) l

/-- The priority at which the sort actually collects a property: its
own priority, floored to 64 when CHANGES_OFTEN is set (such a property
is collected by the earlier of pass 64 and its own priority pass). -/
def effPrio (x : FProp) : Nat := if x.changesOften then min x.prio 64 else x.prio

/-- The effective priority the claim asserts: CHANGES_OFTEN treated as
exactly priority 64. -/
def claimEff (x : FProp) : Nat := if x.changesOften then 64 else x.prio

/-- C2 — counterexample.  Both parts of the claim fail.  On the
gathered list [(2,-,0), (2,-,1), (1,-,2)] the pass for priority 1 swaps
(1,-,2) to the front, sending (2,-,0) behind (2,-,1): the flattened
list is [(1,-,2), (2,-,1), (2,-,0)], so the priority-2 bucket does not
keep its gathered order.  On [(2,CO,0), (10,-,1)] the CHANGES_OFTEN
property is collected by its own priority-2 pass, which runs before
pass 10, so it is NOT treated as priority 64: the output is not sorted
by the claimed effective priority. -/
theorem c2_flatten_counterexample :
    (flattenSort [⟨2, false, 0⟩, ⟨2, false, 1⟩, ⟨1, false, 2⟩] =
        [⟨1, false, 2⟩, ⟨2, false, 1⟩, ⟨2, false, 0⟩] ∧
      ¬ (flattenSort [⟨2, false, 0⟩, ⟨2, false, 1⟩, ⟨1, false, 2⟩]).Pairwise
          (fun a b => claimEff a = claimEff b → a.idx < b.idx)) ∧
    (flattenSort [⟨2, true, 0⟩, ⟨10, false, 1⟩] = [⟨2, true, 0⟩, ⟨10, false, 1⟩] ∧
      ¬ (flattenSort [⟨2, true, 0⟩, ⟨10, false, 1⟩]).Pairwise
          (fun a b => claimEff a ≤ claimEff b)) := by
  refine ⟨⟨by decide, by decide⟩, ⟨by decide, by decide⟩⟩

theorem pass_invariant (p : Nat) :
    ∀ (l m mid : List FProp),
      ((l.foldl (passStep p) (m, mid)).1 ++ (l.foldl (passStep p) (m, mid)).2).Perm
        (m ++ mid ++ l) ∧
      ((∀ x ∈ m, matchesAt p x = true) →
        ∀ x ∈ (l.foldl (passStep p) (m, mid)).1, matchesAt p x = true) ∧
      ((∀ x ∈ mid, matchesAt p x = false) →
        ∀ x ∈ (l.foldl (passStep p) (m, mid)).2, matchesAt p x = false) := by
  intro l
  induction l with
  | nil =>
    intro m mid
    refine ⟨by simp, fun h => by simpa using h, fun h => by simpa using h⟩
  | cons x rest ih =>
    intro m mid
    by_cases hx : matchesAt p x = true
    · cases mid with
      | nil =>
        have hstep : List.foldl (passStep p) (m, ([] : List FProp)) (x :: rest) =
            List.foldl (passStep p) (m ++ [x], []) rest := by
          simp [List.foldl, passStep, hx]
        obtain ⟨hperm, hm, hmid⟩ := ih (m ++ [x]) []
        rw [hstep]
        refine ⟨hperm.trans (by simp), ?_, fun _ => hmid (by simp)⟩
        intro hall
        refine hm ?_
        intro a ha
        rcases List.mem_append.mp ha with h | h
        · exact hall a h
        · simpa using List.mem_singleton.mp h ▸ hx
      | cons y ys =>
        have hstep : List.foldl (passStep p) (m, y :: ys) (x :: rest) =
            List.foldl (passStep p) (m ++ [x], ys ++ [y]) rest := by
          simp [List.foldl, passStep, hx]
        obtain ⟨hperm, hm, hmid⟩ := ih (m ++ [x]) (ys ++ [y])
        rw [hstep]
        refine ⟨hperm.trans ?_, ?_, ?_⟩
        · have e1 : (m ++ [x]) ++ (ys ++ [y]) ++ rest = m ++ (x :: (ys ++ y :: rest)) := by
            simp
          have e2 : m ++ (y :: ys) ++ (x :: rest) = m ++ (y :: (ys ++ x :: rest)) := by
            simp
          rw [e1, e2]
          refine List.Perm.append_left m ?_
          have p2 : (x :: (ys ++ y :: rest)).Perm (x :: (y :: (ys ++ rest))) :=
            List.Perm.cons x List.perm_middle
          have p3 : (x :: y :: (ys ++ rest)).Perm (y :: x :: (ys ++ rest)) :=
            List.Perm.swap y x (ys ++ rest)
          have p4 : (y :: (x :: (ys ++ rest))).Perm (y :: (ys ++ x :: rest)) :=
            List.Perm.cons y List.perm_middle.symm
          exact (p2.trans p3).trans p4
        · intro hall
          refine hm ?_
          intro a ha
          rcases List.mem_append.mp ha with h | h
          · exact hall a h
          · simpa using List.mem_singleton.mp h ▸ hx
        · intro hall
          refine hmid ?_
          intro a ha
          rcases List.mem_append.mp ha with h | h
          · exact hall a (by simp [h])
          · have : a = y := List.mem_singleton.mp h
            exact this ▸ hall y (by simp)
    · have hstep : List.foldl (passStep p) (m, mid) (x :: rest) =
          List.foldl (passStep p) (m, mid ++ [x]) rest := by
        simp [List.foldl, passStep, hx]
      obtain ⟨hperm, hm, hmid⟩ := ih m (mid ++ [x])
      rw [hstep]
      refine ⟨hperm.trans (by simp [List.append_assoc]), hm, ?_⟩
      intro hall
      refine hmid ?_
      intro a ha
      rcases List.mem_append.mp ha with h | h
      · exact hall a h
      · have : a = x := List.mem_singleton.mp h
        subst this
        simpa using hx

theorem matchesAt_iff {p : Nat} {x : FProp} :
    matchesAt p x = true ↔ (x.prio = p ∨ (x.changesOften = true ∧ p = 64)) := by
  unfold matchesAt
  rcases hco : x.changesOften <;> simp [hco]

theorem effPrio_eq_of_matches {p : Nat} {ps : List Nat} {x : FProp}
    (hsorted : (p :: ps).Pairwise (· < ·))
    (hmem : effPrio x ∈ p :: ps) (hm : matchesAt p x = true) : effPrio x = p := by
  have hge : p ≤ effPrio x := by
    rcases List.mem_cons.mp hmem with h | h
    · omega
    · have := (List.pairwise_cons.mp hsorted).1 _ h
      omega
  rcases matchesAt_iff.mp hm with h | ⟨hco, h64⟩
  · rcases hco2 : x.changesOften
    · have he : effPrio x = x.prio := by simp [effPrio, hco2]
      omega
    · have he : effPrio x = min x.prio 64 := by simp [effPrio, hco2]
      omega
  · have he : effPrio x = min x.prio 64 := by simp [effPrio, hco]
    omega

theorem effPrio_mem_tail {p : Nat} {ps : List Nat} {x : FProp}
    (hmem : effPrio x ∈ p :: ps) (hm : matchesAt p x = false) : effPrio x ∈ ps := by
  rcases List.mem_cons.mp hmem with h | h
  · exfalso
    have hmt : matchesAt p x = true := by
      rcases hco : x.changesOften
      · have he : effPrio x = x.prio := by simp [effPrio, hco]
        exact matchesAt_iff.mpr (Or.inl (by omega))
      · have he : effPrio x = min x.prio 64 := by simp [effPrio, hco]
        by_cases hp : x.prio ≤ 64
        · exact matchesAt_iff.mpr (Or.inl (by omega))
        · exact matchesAt_iff.mpr (Or.inr ⟨hco, by omega⟩)
    simp [hmt] at hm
  · exact h

theorem le_maxPrio (l : List FProp) : 64 ≤ maxPrio l ∧ ∀ x ∈ l, x.prio ≤ maxPrio l := by
  induction l with
  | nil => exact ⟨le_refl 64, by simp⟩
  | cons y ys ih =>
    obtain ⟨h64, hall⟩ := ih
    refine ⟨?_, ?_⟩
    · simp only [maxPrio, List.foldr]
      have : maxPrio ys = ys.foldr (fun x acc => max x.prio acc) 64 := rfl
      omega
    · intro x hx
      rcases List.mem_cons.mp hx with h | h
      · subst h
        simp only [maxPrio, List.foldr]
        have : maxPrio ys = ys.foldr (fun x acc => max x.prio acc) 64 := rfl
        omega
      · have := hall x h
        simp only [maxPrio, List.foldr]
        have h2 : maxPrio ys = ys.foldr (fun x acc => max x.prio acc) 64 := rfl
        omega

theorem effPrio_mem_prioritiesList {l : List FProp} {x : FProp} (hx : x ∈ l) :
    effPrio x ∈ prioritiesList l := by
  obtain ⟨h64, hall⟩ := le_maxPrio l
  have hxp := hall x hx
  have heff : effPrio x ≤ maxPrio l := by
    rcases hco : x.changesOften
    · have he : effPrio x = x.prio := by simp [effPrio, hco]
      omega
    · have he : effPrio x = min x.prio 64 := by simp [effPrio, hco]
      omega
  refine List.mem_filter.mpr ⟨List.mem_range.mpr (by omega), ?_⟩
  by_cases hco : x.changesOften = true
  · by_cases hp : x.prio ≤ 64
    · have he : effPrio x = x.prio := by simp [effPrio, hco]; omega
      refine Bool.or_eq_true _ _ |>.mpr (Or.inr ?_)
      refine List.any_eq_true.mpr ⟨x, hx, ?_⟩
      simp [he]
    · have he : effPrio x = 64 := by simp [effPrio, hco]; omega
      refine Bool.or_eq_true _ _ |>.mpr (Or.inl ?_)
      simp [he]
  · have he : effPrio x = x.prio := by
      rw [Bool.not_eq_true] at hco
      simp [effPrio, hco]
    refine Bool.or_eq_true _ _ |>.mpr (Or.inr ?_)
    refine List.any_eq_true.mpr ⟨x, hx, ?_⟩
    simp [he]

theorem prioritiesList_sorted (l : List FProp) :
    (prioritiesList l).Pairwise (· < ·) :=
  (List.pairwise_lt_range _).filter _

theorem partitionPasses_sorted :
    ∀ (ps : List Nat) (l : List FProp), ps.Pairwise (· < ·) →
      (∀ x ∈ l, effPrio x ∈ ps) →
      (partitionPasses ps l).Perm l ∧
      (partitionPasses ps l).Pairwise (fun a b => effPrio a ≤ effPrio b) := by
  intro ps
  induction ps with
  | nil =>
    intro l _ hmem
    have : l = [] := by
      cases l with
      | nil => rfl
      | cons a as => exact absurd (hmem a (by simp)) (by simp)
    subst this
    exact ⟨List.Perm.refl _, List.Pairwise.nil⟩
  | cons p ps ih =>
    intro l hsorted hmem
    obtain ⟨hperm, hm, hmid⟩ := pass_invariant p l [] []
    have hperm' : ((partitionPass p l).1 ++ (partitionPass p l).2).Perm l := by
      simpa [partitionPass] using hperm
    have hmAll : ∀ x ∈ (partitionPass p l).1, matchesAt p x = true :=
      hm (by simp)
    have hmidAll : ∀ x ∈ (partitionPass p l).2, matchesAt p x = false :=
      hmid (by simp)
    have hmemL : ∀ x ∈ (partitionPass p l).1 ++ (partitionPass p l).2, x ∈ l :=
      fun x hx => hperm'.mem_iff.mp hx
    have hmidMem : ∀ x ∈ (partitionPass p l).2, effPrio x ∈ ps := by
      intro x hx
      have hxl : x ∈ l := hmemL x (List.mem_append.mpr (Or.inr hx))
      exact effPrio_mem_tail (hmem x hxl) (hmidAll x hx)
    obtain ⟨hrecPerm, hrecPair⟩ :=
      ih (partitionPass p l).2 (List.pairwise_cons.mp hsorted).2 hmidMem
    have hmEff : ∀ x ∈ (partitionPass p l).1, effPrio x = p := by
      intro x hx
      have hxl : x ∈ l := hmemL x (List.mem_append.mpr (Or.inl hx))
      exact effPrio_eq_of_matches hsorted (hmem x hxl) (hmAll x hx)
    constructor
    · show ((partitionPass p l).1 ++ partitionPasses ps (partitionPass p l).2).Perm l
      exact ((List.Perm.append_left _ hrecPerm).trans hperm')
    · show ((partitionPass p l).1 ++ partitionPasses ps (partitionPass p l).2).Pairwise _
      refine List.pairwise_append.mpr ⟨?_, hrecPair, ?_⟩
      · refine List.pairwise_of_forall_mem_list ?_
        intro a ha b hb
        rw [hmEff a ha, hmEff b hb]
      · intro a ha b hb
        rw [hmEff a ha]
        have hbMid : b ∈ (partitionPass p l).2 := hrecPerm.mem_iff.mp hb
        have hbPs : effPrio b ∈ ps := hmidMem b hbMid
        have := (List.pairwise_cons.mp hsorted).1 _ hbPs
        omega

/-- C2 (amended).  The flattened list is a permutation of the gathered
list sorted ascending by the priority at which the swap-partition
passes collect each property: a property's own priority, floored to 64
when CHANGES_OFTEN is set.  (A CHANGES_OFTEN property with priority
below 64 is collected at its own priority, not at 64, and the in-place
swaps rotate the uncollected region, so the relative gathered order
inside a priority bucket is not preserved in general — both shown by
the counterexample.) -/
theorem c2_flattenSort_sorted_perm (l : List FProp) :
    (flattenSort l).Perm l ∧
    (flattenSort l).Pairwise (fun a b => effPrio a ≤ effPrio b) := by
  unfold flattenSort
  exact partitionPasses_sorted (prioritiesList l) l (prioritiesList_sorted l)
    (fun x hx => effPrio_mem_prioritiesList hx)

/-! Stringtable delta key decoding (stringtable.cpp update, lines
70-108). -/

/-- bitstream::nReadString(buffer, n): up to n bytes of 8 bits; the
byte written is returned and the loop stops after writing a NUL. -/
def nReadStringBytes : Nat → bitstream → Except Err (List Nat × bitstream)
  | 0, s => .ok ([], s)
  | n + 1, s =>
    match s.read 8 with
    | .error e => .error e
    | .ok (b, s1) =>
      if b = 0 then .ok ([0], s1)
      else
        match nReadStringBytes n s1 with
        | .error e => .error e
        | .ok (bs, s2) => .ok (b :: bs, s2)

/-- The final buffer[n-1] = NUL write of nReadString, which fires when
the loop consumed its whole budget without a terminator (a no-op when
the terminator landed on the last byte). -/
def stringResult (n : Nat) (bs : List Nat) : List Nat :=
  if bs.length = n then bs.take (n - 1) ++ [0] else bs

/-- The std::string built from the 1024-byte key buffer after the
substring copy and the tail read: pre is what the copy placed at offset
0, the tail lands at the copy offset, and the string stops at the first
NUL (unwritten buffer bytes are zero-initialized). -/
def keyFromBuffer (pre : List Nat) (offset : Nat) (bs : List Nat) : List Nat :=
  (pre ++ List.replicate (offset - pre.length) 0 ++ bs).takeWhile (fun b => b ≠ 0)

/-- The key-reading branch of stringtable::update after the hasName and
full checks: one substring bit; when set, 5 bits of history index and 5
bits of prefix length, the guard (dead, since five-bit reads are below
both bounds), then either a fresh NUL-terminated key (history miss) or
the copied prefix plus a NUL-terminated tail. -/
def readEntryKeyBody (keys : List (List Nat)) (s : bitstream) :
    Except Err (List Nat × bitstream) := do
  let (sub, s) ← s.read 1
  if sub ≠ 0 then do
    let (sIndex, s) ← s.read 5
    let (sLength, s) ← s.read 5
    if sIndex ≥ 32 ∨ sLength ≥ 1024 then .error .stringtableMalformedSubstring
    else if keys.length ≤ sIndex then do
      let (bs, s1) ← nReadStringBytes 1024 s
      pure (keyFromBuffer [] 0 (stringResult 1024 bs), s1)
    else do
      let (bs, s1) ← nReadStringBytes (1024 - sLength) s
      pure (keyFromBuffer ((keys.getD sIndex []).take sLength) sLength
        (stringResult (1024 - sLength) bs), s1)
  else do
    let (bs, s1) ← nReadStringBytes 1024 s
    pure (keyFromBuffer [] 0 (stringResult 1024 bs), s1)

/-- The key step with the full-update check in front: when the delta is
a full one, a set bit here aborts with stringtableKeyMissing (the bit
is only read for full updates: the source condition short-circuits). -/
def readEntryKey (full : Bool) (keys : List (List Nat)) (s : bitstream) :
    Except Err (List Nat × bitstream) :=
  if full then
    match s.read 1 with
    | .error e => .error e
    | .ok (b, s1) => if b ≠ 0 then .error .stringtableKeyMissing else readEntryKeyBody keys s1
  else readEntryKeyBody keys s

theorem nReadStringBytes_not_malformed :
    ∀ (n : Nat) (s : bitstream),
      nReadStringBytes n s ≠ .error .stringtableMalformedSubstring := by
  intro n
  induction n with
  | zero => intro s; simp [nReadStringBytes]
  | succ m ih =>
    intro s
    simp only [nReadStringBytes]
    match hr : s.read 8 with
    | .error e =>
      have : e = .bitstreamOverflow := by
        unfold bitstream.read at hr
        by_cases h1 : 8 > s.size - s.pos
        · rw [if_pos h1] at hr
          exact (Except.error.injEq _ _).mp hr.symm
        · rw [if_neg h1, if_neg (by omega)] at hr
          exact absurd hr (by simp)
      subst this
      simp
    | .ok (b, s1) =>
      by_cases hb : b = 0
      · simp [hb]
      · simp only [if_neg hb]
        match hrec : nReadStringBytes m s1 with
        | .error e =>
          have := ih s1
          rw [hrec] at this
          simpa using this
        | .ok (bs, s2) => simp

theorem read_error_overflow {s : bitstream} {n : Nat} {e : Err}
    (h : s.read n = .error e) : e = .bitstreamOverflow := by
  unfold bitstream.read at h
  by_cases h1 : n > s.size - s.pos
  · rw [if_pos h1] at h
    exact ((Except.error.injEq _ _).mp h).symm
  · rw [if_neg h1] at h
    by_cases h2 : n > 32
    · rw [if_pos h2] at h
      exact ((Except.error.injEq _ _).mp h).symm
    · rw [if_neg h2] at h
      exact absurd h (by simp)

theorem nReadStringBytes_term :
    ∀ (m budget : Nat) (s : bitstream), m < budget →
      (∀ i, i < m → bitsVal s.bits (s.pos + 8 * i) 8 ≠ 0) →
      bitsVal s.bits (s.pos + 8 * m) 8 = 0 →
      s.pos + 8 * (m + 1) ≤ s.size →
      nReadStringBytes budget s =
        .ok ((List.range m).map (fun i => bitsVal s.bits (s.pos + 8 * i) 8) ++ [0],
          { s with pos := s.pos + 8 * (m + 1) }) := by
  intro m
  induction m with
  | zero =>
    intro budget s hb hnz hz hroom
    obtain ⟨r, rfl⟩ : ∃ r, budget = r + 1 := ⟨budget - 1, by omega⟩
    have hread : s.read 8 = .ok (bitsVal s.bits s.pos 8, { s with pos := s.pos + 8 }) :=
      read_eq_ok (by omega) (by omega)
    simp only [Nat.mul_zero, Nat.add_zero] at hz
    simp only [nReadStringBytes, hread, if_pos hz]
    simp [hz]
  | succ k ih =>
    intro budget s hb hnz hz hroom
    obtain ⟨r, rfl⟩ : ∃ r, budget = r + 1 := ⟨budget - 1, by omega⟩
    have hread : s.read 8 = .ok (bitsVal s.bits s.pos 8, { s with pos := s.pos + 8 }) :=
      read_eq_ok (by omega) (by omega)
    have hb0 : bitsVal s.bits s.pos 8 ≠ 0 := by
      have h0 := hnz 0 (by omega)
      simpa using h0
    have hrec := ih r { s with pos := s.pos + 8 } (by omega)
      (by intro i hi
          have h1 := hnz (i + 1) (by omega)
          simp only
          have he : s.pos + 8 + 8 * i = s.pos + 8 * (i + 1) := by ring
          rw [he]; exact h1)
      (by simp only
          have he : s.pos + 8 + 8 * k = s.pos + 8 * (k + 1) := by ring
          rw [he]; exact hz)
      (by simp only; omega)
    simp only at hrec
    simp only [nReadStringBytes, hread, if_neg hb0, hrec]
    have hlist : bitsVal s.bits s.pos 8 ::
        ((List.range k).map (fun i => bitsVal s.bits (s.pos + 8 + 8 * i) 8) ++ [0]) =
        (List.range (k + 1)).map (fun i => bitsVal s.bits (s.pos + 8 * i) 8) ++ [0] := by
      rw [List.range_succ_eq_map]
      simp only [List.map_cons, List.map_map, Nat.mul_zero, Nat.add_zero, List.cons_append]
      refine congrArg₂ _ rfl (congrArg₂ _ ?_ rfl)
      refine List.map_congr_left ?_
      intro i _
      simp only [Function.comp]
      have he : s.pos + 8 * (i + 1) = s.pos + 8 + 8 * i := by ring
      rw [he]
    have hpos : s.pos + 8 + 8 * (k + 1) = s.pos + 8 * (k + 1 + 1) := by ring
    rw [hpos, hlist]

theorem stringResult_term (n : Nat) (l : List Nat) (h : l.length + 1 ≤ n) :
    stringResult n (l ++ [0]) = l ++ [0] := by
  unfold stringResult
  by_cases hn : (l ++ [0]).length = n
  · rw [if_pos hn]
    have hl : l.length = n - 1 := by simp at hn; omega
    rw [← hl, List.take_left]
  · rw [if_neg hn]

theorem takeWhile_append_zero (l1 rest : List Nat) (h : ∀ b ∈ l1, b ≠ 0) :
    (l1 ++ 0 :: rest).takeWhile (fun b => b ≠ 0) = l1 := by
  induction l1 with
  | nil => simp [List.takeWhile]
  | cons a l ih =>
    have ha : a ≠ 0 := h a (by simp)
    simp only [List.cons_append, List.takeWhile_cons]
    rw [if_pos (by simpa using ha)]
    rw [ih (fun b hb => h b (by simp [hb]))]

theorem read_val_lt {s : bitstream} {n v : Nat} {s1 : bitstream}
    (h : s.read n = .ok (v, s1)) : v < 2 ^ n := by
  unfold bitstream.read at h
  by_cases h1 : n > s.size - s.pos
  · rw [if_pos h1] at h
    exact absurd h (by simp)
  · rw [if_neg h1] at h
    by_cases h2 : n > 32
    · rw [if_pos h2] at h
      exact absurd h (by simp)
    · rw [if_neg h2] at h
      have hv : v = bitsVal s.bits s.pos n := by
        have := (Except.ok.injEq _ _).mp h.symm
        exact (Prod.mk.injEq _ _ _ _ |>.mp this).1
      rw [hv]
      exact bitsVal_lt s.bits n s.pos

theorem readEntryKeyBody_not_malformed (keys : List (List Nat)) (s : bitstream) :
    readEntryKeyBody keys s ≠ .error .stringtableMalformedSubstring := by
  simp only [readEntryKeyBody, bind, Except.bind]
  rcases hr1 : s.read 1 with e1 | ⟨sub, s1⟩
  · have h := read_error_overflow hr1
    simp [h]
  · dsimp only
    by_cases hsub : sub ≠ 0
    · simp only [if_pos hsub]
      rcases hr2 : s1.read 5 with e2 | ⟨si, s2⟩
      · have h := read_error_overflow hr2
        simp [h]
      · dsimp only
        rcases hr3 : s2.read 5 with e3 | ⟨sl, s3⟩
        · have h := read_error_overflow hr3
          simp [h]
        · dsimp only
          have hsi : si < 32 := by
            have h := read_val_lt hr2
            norm_num at h
            exact h
          have hsl : sl < 32 := by
            have h := read_val_lt hr3
            norm_num at h
            exact h
          rw [if_neg (by omega)]
          by_cases hk : keys.length ≤ si
          · rw [if_pos hk]
            rcases hr4 : nReadStringBytes 1024 s3 with e4 | ⟨bs, s4⟩
            · have h := nReadStringBytes_not_malformed 1024 s3
              rw [hr4] at h
              simpa using h
            · simp [pure, Except.pure]
          · rw [if_neg hk]
            rcases hr4 : nReadStringBytes (1024 - sl) s3 with e4 | ⟨bs, s4⟩
            · have h := nReadStringBytes_not_malformed (1024 - sl) s3
              rw [hr4] at h
              simpa using h
            · simp [pure, Except.pure]
    · simp only [if_neg hsub]
      rcases hr4 : nReadStringBytes 1024 s1 with e4 | ⟨bs, s4⟩
      · have h := nReadStringBytes_not_malformed 1024 s1
        rw [hr4] at h
        simpa using h
      · simp [pure, Except.pure]

/-- C9.  Part one: the malformed-substring failure can never fire,
since both five-bit reads are below the 32 and 1024 bounds — so a
history index that is too large never aborts the delta parse.  Part
two: when the 5-bit history index is at least the key-history length,
the reference is discarded and a fresh NUL-terminated key is read, and
the key step returns successfully (local recovery).  Part three: when
the history index is valid (and the prefix length is within the
referenced key, whose bytes are non-NUL), the key is the first
prefix-length bytes of the referenced history key followed by the
NUL-terminated tail read from the stream. -/
theorem c9_substring_backref_recovery :
    (∀ (full : Bool) (keys : List (List Nat)) (s : bitstream),
      readEntryKey full keys s ≠ .error .stringtableMalformedSubstring) ∧
    (∀ (keys : List (List Nat)) (s : bitstream) (m : Nat),
      bitAt s.bits s.pos = true →
      keys.length ≤ bitsVal s.bits (s.pos + 1) 5 →
      m < 1024 →
      (∀ i, i < m → bitsVal s.bits (s.pos + 11 + 8 * i) 8 ≠ 0) →
      bitsVal s.bits (s.pos + 11 + 8 * m) 8 = 0 →
      s.pos + 11 + 8 * (m + 1) ≤ s.size →
      readEntryKeyBody keys s =
        .ok ((List.range m).map (fun i => bitsVal s.bits (s.pos + 11 + 8 * i) 8),
          { s with pos := s.pos + 11 + 8 * (m + 1) })) ∧
    (∀ (keys : List (List Nat)) (s : bitstream) (m : Nat),
      bitAt s.bits s.pos = true →
      bitsVal s.bits (s.pos + 1) 5 < keys.length →
      bitsVal s.bits (s.pos + 6) 5 ≤ (keys.getD (bitsVal s.bits (s.pos + 1) 5) []).length →
      (∀ b ∈ keys.getD (bitsVal s.bits (s.pos + 1) 5) [], b ≠ 0) →
      m + 1 ≤ 1024 - bitsVal s.bits (s.pos + 6) 5 →
      (∀ i, i < m → bitsVal s.bits (s.pos + 11 + 8 * i) 8 ≠ 0) →
      bitsVal s.bits (s.pos + 11 + 8 * m) 8 = 0 →
      s.pos + 11 + 8 * (m + 1) ≤ s.size →
      readEntryKeyBody keys s =
        .ok ((keys.getD (bitsVal s.bits (s.pos + 1) 5) []).take
              (bitsVal s.bits (s.pos + 6) 5) ++
            (List.range m).map (fun i => bitsVal s.bits (s.pos + 11 + 8 * i) 8),
          { s with pos := s.pos + 11 + 8 * (m + 1) })) := by
  refine ⟨?_, ?_, ?_⟩
  · intro full keys s
    unfold readEntryKey
    by_cases hf : full = true
    · rw [if_pos hf]
      rcases hr : s.read 1 with e1 | ⟨b, s1⟩
      · have := read_error_overflow hr
        simp [this]
      · by_cases hb : b ≠ 0
        · simp [hb]
        · simp only [if_neg hb]
          exact readEntryKeyBody_not_malformed keys s1
    · rw [if_neg hf]
      exact readEntryKeyBody_not_malformed keys s
  · intro keys s m hsub hmiss hm hnz hz hroom
    have hr1 : s.read 1 = .ok (bitsVal s.bits s.pos 1, { s with pos := s.pos + 1 }) :=
      read_eq_ok (by omega) (by omega)
    have hb1 : bitsVal s.bits s.pos 1 = 1 := by rw [bitsVal_one, hsub]; rfl
    have hr2 : ({ s with pos := s.pos + 1 } : bitstream).read 5 =
        .ok (bitsVal s.bits (s.pos + 1) 5, { s with pos := s.pos + 6 }) := by
      have := read_eq_ok (s := { s with pos := s.pos + 1 }) (n := 5) (by simp; omega) (by omega)
      simpa using this
    have hr3 : ({ s with pos := s.pos + 6 } : bitstream).read 5 =
        .ok (bitsVal s.bits (s.pos + 6) 5, { s with pos := s.pos + 11 }) := by
      have := read_eq_ok (s := { s with pos := s.pos + 6 }) (n := 5) (by simp; omega) (by omega)
      simpa using this
    have hsi : bitsVal s.bits (s.pos + 1) 5 < 32 := by
      have := bitsVal_lt s.bits 5 (s.pos + 1)
      norm_num at this
      exact this
    have hsl : bitsVal s.bits (s.pos + 6) 5 < 32 := by
      have := bitsVal_lt s.bits 5 (s.pos + 6)
      norm_num at this
      exact this
    have hterm := nReadStringBytes_term m 1024 { s with pos := s.pos + 11 } (by omega)
      (by intro i hi
          simp only
          exact hnz i hi)
      (by simp only
          exact hz)
      (by simp only; omega)
    simp only at hterm
    have hcontent : ∀ b ∈ (List.range m).map (fun i => bitsVal s.bits (s.pos + 11 + 8 * i) 8),
        b ≠ 0 := by
      intro b hb
      obtain ⟨i, hi, rfl⟩ := List.mem_map.mp hb
      exact hnz i (List.mem_range.mp hi)
    simp only [readEntryKeyBody, bind, Except.bind, hr1, hb1]
    norm_num
    simp only [hr2, hr3, hterm]
    rw [if_neg (by omega), if_pos hmiss]
    have hres : stringResult 1024
        ((List.range m).map (fun i => bitsVal s.bits (s.pos + 11 + 8 * i) 8) ++ [0]) =
        (List.range m).map (fun i => bitsVal s.bits (s.pos + 11 + 8 * i) 8) ++ [0] := by
      refine stringResult_term _ _ ?_
      simp
      omega
    have hkey : keyFromBuffer [] 0
        ((List.range m).map (fun i => bitsVal s.bits (s.pos + 11 + 8 * i) 8) ++ [0]) =
        (List.range m).map (fun i => bitsVal s.bits (s.pos + 11 + 8 * i) 8) := by
      unfold keyFromBuffer
      simp only [List.nil_append, List.length_nil, Nat.zero_sub, List.replicate_zero]
      have he : (List.range m).map (fun i => bitsVal s.bits (s.pos + 11 + 8 * i) 8) ++ [0] =
          (List.range m).map (fun i => bitsVal s.bits (s.pos + 11 + 8 * i) 8) ++ 0 :: [] := rfl
      rw [he, takeWhile_append_zero _ _ hcontent]
    rw [hres, hkey]
    rfl
  · intro keys s m hsub hvalid hlen hhist hbudget hnz hz hroom
    have hr1 : s.read 1 = .ok (bitsVal s.bits s.pos 1, { s with pos := s.pos + 1 }) :=
      read_eq_ok (by omega) (by omega)
    have hb1 : bitsVal s.bits s.pos 1 = 1 := by rw [bitsVal_one, hsub]; rfl
    have hr2 : ({ s with pos := s.pos + 1 } : bitstream).read 5 =
        .ok (bitsVal s.bits (s.pos + 1) 5, { s with pos := s.pos + 6 }) := by
      have := read_eq_ok (s := { s with pos := s.pos + 1 }) (n := 5) (by simp; omega) (by omega)
      simpa using this
    have hr3 : ({ s with pos := s.pos + 6 } : bitstream).read 5 =
        .ok (bitsVal s.bits (s.pos + 6) 5, { s with pos := s.pos + 11 }) := by
      have := read_eq_ok (s := { s with pos := s.pos + 6 }) (n := 5) (by simp; omega) (by omega)
      simpa using this
    have hsi : bitsVal s.bits (s.pos + 1) 5 < 32 := by
      have := bitsVal_lt s.bits 5 (s.pos + 1)
      norm_num at this
      exact this
    have hsl : bitsVal s.bits (s.pos + 6) 5 < 32 := by
      have := bitsVal_lt s.bits 5 (s.pos + 6)
      norm_num at this
      exact this
    have hterm := nReadStringBytes_term m (1024 - bitsVal s.bits (s.pos + 6) 5)
      { s with pos := s.pos + 11 } (by omega)
      (by intro i hi
          simp only
          exact hnz i hi)
      (by simp only
          exact hz)
      (by simp only; omega)
    simp only at hterm
    have hcontent : ∀ b ∈ (List.range m).map (fun i => bitsVal s.bits (s.pos + 11 + 8 * i) 8),
        b ≠ 0 := by
      intro b hb
      obtain ⟨i, hi, rfl⟩ := List.mem_map.mp hb
      exact hnz i (List.mem_range.mp hi)
    simp only [readEntryKeyBody, bind, Except.bind, hr1, hb1]
    norm_num
    simp only [hr2, hr3, hterm]
    rw [if_neg (by omega), if_neg (by omega)]
    have hres : stringResult (1024 - bitsVal s.bits (s.pos + 6) 5)
        ((List.range m).map (fun i => bitsVal s.bits (s.pos + 11 + 8 * i) 8) ++ [0]) =
        (List.range m).map (fun i => bitsVal s.bits (s.pos + 11 + 8 * i) 8) ++ [0] := by
      refine stringResult_term _ _ ?_
      simp
      omega
    have hprelen : ((keys.getD (bitsVal s.bits (s.pos + 1) 5) []).take
        (bitsVal s.bits (s.pos + 6) 5)).length = bitsVal s.bits (s.pos + 6) 5 := by
      rw [List.length_take]
      omega
    have hkey : keyFromBuffer
        ((keys.getD (bitsVal s.bits (s.pos + 1) 5) []).take (bitsVal s.bits (s.pos + 6) 5))
        (bitsVal s.bits (s.pos + 6) 5)
        ((List.range m).map (fun i => bitsVal s.bits (s.pos + 11 + 8 * i) 8) ++ [0]) =
        (keys.getD (bitsVal s.bits (s.pos + 1) 5) []).take (bitsVal s.bits (s.pos + 6) 5) ++
          (List.range m).map (fun i => bitsVal s.bits (s.pos + 11 + 8 * i) 8) := by
      unfold keyFromBuffer
      rw [hprelen]
      simp only [Nat.sub_self, List.replicate_zero, List.nil_append, List.append_nil]
      have hall : ∀ b ∈ (keys.getD (bitsVal s.bits (s.pos + 1) 5) []).take
          (bitsVal s.bits (s.pos + 6) 5) ++
          (List.range m).map (fun i => bitsVal s.bits (s.pos + 11 + 8 * i) 8), b ≠ 0 := by
        intro b hb
        rcases List.mem_append.mp hb with h | h
        · exact hhist b (List.mem_of_mem_take h)
        · exact hcontent b h
      rw [← List.append_assoc]
      exact takeWhile_append_zero _ _ hall
    simp only [List.getD_eq_getElem?_getD] at hkey
    rw [hres, hkey]
    rfl

/-- C9 — witness: the recovery part applied with an empty history (the
5-bit history index 0 is not below the history length 0), and the
valid part applied with history ["A"], prefix length 1 and an empty
tail: the key is the copied prefix [65]. -/
theorem c9_substring_backref_recovery_witness :
    readEntryKeyBody []
        { bits := [true] ++ List.replicate 10 false ++ byteBits 0, pos := 0, size := 19 } =
      .ok ((List.range 0).map
          (fun i => bitsVal ([true] ++ List.replicate 10 false ++ byteBits 0) (0 + 11 + 8 * i) 8),
        { bits := [true] ++ List.replicate 10 false ++ byteBits 0, pos := 0 + 11 + 8 * (0 + 1),
          size := 19 }) ∧
    readEntryKeyBody [[65]]
        { bits := [true] ++ List.replicate 5 false ++ [true] ++ List.replicate 4 false ++
            byteBits 0, pos := 0, size := 19 } =
      .ok ((([[65]] : List (List Nat)).getD
            (bitsVal ([true] ++ List.replicate 5 false ++ [true] ++ List.replicate 4 false ++
              byteBits 0) (0 + 1) 5) []).take
            (bitsVal ([true] ++ List.replicate 5 false ++ [true] ++ List.replicate 4 false ++
              byteBits 0) (0 + 6) 5) ++
          (List.range 0).map
            (fun i => bitsVal ([true] ++ List.replicate 5 false ++ [true] ++
              List.replicate 4 false ++ byteBits 0) (0 + 11 + 8 * i) 8),
        { bits := [true] ++ List.replicate 5 false ++ [true] ++ List.replicate 4 false ++
            byteBits 0, pos := 0 + 11 + 8 * (0 + 1), size := 19 }) := by
  constructor
  · exact c9_substring_backref_recovery.2.1 []
      { bits := [true] ++ List.replicate 10 false ++ byteBits 0, pos := 0, size := 19 } 0
      (by decide) (by decide) (by decide) (by decide) (by decide) (by decide)
  · exact c9_substring_backref_recovery.2.2 [[65]]
      { bits := [true] ++ List.replicate 5 false ++ [true] ++ List.replicate 4 false ++
          byteBits 0, pos := 0, size := 19 } 0
      (by decide) (by decide) (by decide) (by decide) (by decide) (by decide) (by decide)
      (by decide)

/-! Stringtable creation and update bookkeeping (parser.cpp
handleCreateStringtable / handleUpdateStringtable). -/

/-- The fields of CSVCMsg_CreateStringTable that the create handler
consults before storing a table. -/
structure CreateMsg where
  name : String
  userDataSizeBits : Nat
deriving DecidableEq, Repr

/-- A stored string table, keyed by its numeric id; updates is a
counter standing for the effect of stringtable::update calls. -/
structure STEntry where
  tid : Int
  name : String
  updates : Nat
deriving DecidableEq, Repr

/-- The parser state the two handlers touch: the running table-id
counter (initialized to -1 in the parser constructor) and the ordered
table store. -/
structure PState where
  stringtableId : Int
  tables : List STEntry
deriving DecidableEq, Repr

/-- The parser state before any CreateStringTable record. -/
def initPState : PState := { stringtableId := -1, tables := [] }

/-- parser::handleCreateStringtable: the id counter is incremented
first (int32_t tableid = ++stringtableId), then the table is dropped if
user_data_size_bits has bit 1 set or its name is in skip_stringtables,
else stored under the new id. -/
def handleCreateStringtable (skip : List String) (st : PState) (m : CreateMsg) : PState :=
  let tableid := st.stringtableId + 1
  if m.userDataSizeBits &&& 2 ≠ 0 then { st with stringtableId := tableid }
  else if m.name ∈ skip then { st with stringtableId := tableid }
  else { stringtableId := tableid,
         tables := st.tables ++ [{ tid := tableid, name := m.name, updates := 0 }] }

/-- parser::handleUpdateStringtable: locate by numeric id; drop the
update silently when no table carries that id, else apply it. -/
def handleUpdateStringtable (st : PState) (tid : Int) : PState :=
  match st.tables.find? (fun e => e.tid == tid) with
  | none => st
  | some _ =>
    { st with tables :=
        st.tables.map (fun e => if e.tid == tid then { e with updates := e.updates + 1 } else e) }

/-- Whether a create record is dropped by handleCreateStringtable. -/
def droppedMsg (skip : List String) (m : CreateMsg) : Bool :=
  (m.userDataSizeBits &&& 2 != 0) || skip.contains m.name

/-- The tables a run of create records stores when the counter starts
at base. -/
def newTables (skip : List String) (base : Int) : List CreateMsg → List STEntry
  | [] => []
  | m :: ms =>
    (if droppedMsg skip m then [] else [{ tid := base + 1, name := m.name, updates := 0 }]) ++
      newTables skip (base + 1) ms

theorem handleCreate_run (skip : List String) :
    ∀ (msgs : List CreateMsg) (st : PState),
      msgs.foldl (handleCreateStringtable skip) st =
        { stringtableId := st.stringtableId + msgs.length,
          tables := st.tables ++ newTables skip st.stringtableId msgs } := by
  intro msgs
  induction msgs with
  | nil => intro st; simp [newTables]
  | cons m ms ih =>
    intro st
    have hstep : handleCreateStringtable skip st m =
        { stringtableId := st.stringtableId + 1,
          tables := st.tables ++
            (if droppedMsg skip m then []
             else [{ tid := st.stringtableId + 1, name := m.name, updates := 0 }]) } := by
      unfold handleCreateStringtable droppedMsg
      by_cases h2 : m.userDataSizeBits &&& 2 ≠ 0
      · simp [h2]
      · rw [not_ne_iff] at h2
        by_cases hn : m.name ∈ skip
        · have hc : skip.contains m.name = true := by
            rw [List.contains_iff_exists_mem_beq]
            exact ⟨m.name, hn, by simp⟩
          simp [h2, hn, hc]
        · have hc : skip.contains m.name = false := by
            rw [Bool.eq_false_iff]
            intro hcon
            rw [List.contains_iff_exists_mem_beq] at hcon
            obtain ⟨x, hx, hbeq⟩ := hcon
            have hxm : m.name = x := by simpa using hbeq
            exact hn (hxm ▸ hx)
          simp [h2, hn, hc]
    rw [List.foldl_cons, hstep, ih]
    simp only [newTables, PState.mk.injEq, List.length_cons]
    constructor
    · push_cast
      ring
    · rw [List.append_assoc]

theorem mem_newTables (skip : List String) :
    ∀ (msgs : List CreateMsg) (base : Int) (e : STEntry),
      e ∈ newTables skip base msgs →
      ∃ j, ∃ hj : j < msgs.length, e.tid = base + 1 + j ∧
        droppedMsg skip msgs[j] = false ∧ e.name = msgs[j].name := by
  intro msgs
  induction msgs with
  | nil => intro base e he; simp [newTables] at he
  | cons m ms ih =>
    intro base e he
    simp only [newTables] at he
    rcases List.mem_append.mp he with h | h
    · by_cases hd : droppedMsg skip m
      · rw [if_pos hd] at h
        simp at h
      · rw [if_neg hd] at h
        have : e = { tid := base + 1, name := m.name, updates := 0 } := by simpa using h
        subst this
        exact ⟨0, by simp, by simp, by simpa using hd, by simp⟩
    · obtain ⟨j, hj, htid, hdrop, hname⟩ := ih (base + 1) e h
      refine ⟨j + 1, by simpa using Nat.succ_lt_succ hj, ?_, by simpa using hdrop,
        by simpa using hname⟩
      rw [htid]
      push_cast
      ring

theorem newTables_mem_of_kept (skip : List String) :
    ∀ (msgs : List CreateMsg) (base : Int) (j : Nat) (hj : j < msgs.length),
      droppedMsg skip msgs[j] = false →
      ({ tid := base + 1 + j, name := msgs[j].name, updates := 0 } : STEntry) ∈
        newTables skip base msgs := by
  intro msgs
  induction msgs with
  | nil => intro base j hj; simp at hj
  | cons m ms ih =>
    intro base j hj hkept
    cases j with
    | zero =>
      simp only [newTables]
      refine List.mem_append.mpr (Or.inl ?_)
      simp only [List.getElem_cons_zero] at hkept
      rw [if_neg (by simp [hkept])]
      simp
    | succ i =>
      have hj2 : i < ms.length := by
        simp only [List.length_cons] at hj
        omega
      simp only [newTables, List.getElem_cons_succ]
      refine List.mem_append.mpr (Or.inr ?_)
      have hkept2 : droppedMsg skip ms[i] = false := by
        simpa using hkept
      have hmem := ih (base + 1) i hj2 hkept2
      push_cast
      have he : base + 1 + ((i : Int) + 1) = base + 1 + 1 + (i : Int) := by ring
      rw [he]
      exact hmem

/-- C10.  The create handler increments the numeric table-id counter
before deciding whether to drop a table, so after any run of
CreateStringTable records from the initial parser state: the counter
equals the record count minus one (every record, dropped or not,
consumed an id); every stored table created by the j-th record carries
numeric id j, the sender's creation-order number; no stored table
carries a dropped record's id; and an UpdateStringTable addressed to a
dropped record's id finds no table and leaves the state unchanged. -/
theorem c10_dropped_table_consumes_id (skip : List String) (msgs : List CreateMsg)
    (k : Nat) (hk : k < msgs.length) (hdrop : droppedMsg skip msgs[k] = true) :
    (msgs.foldl (handleCreateStringtable skip) initPState).stringtableId =
      (msgs.length : Int) - 1 ∧
    (∀ j, ∀ hj : j < msgs.length, droppedMsg skip msgs[j] = false →
      ({ tid := (j : Int), name := msgs[j].name, updates := 0 } : STEntry) ∈
        (msgs.foldl (handleCreateStringtable skip) initPState).tables) ∧
    (∀ e ∈ (msgs.foldl (handleCreateStringtable skip) initPState).tables,
      e.tid ≠ (k : Int)) ∧
    handleUpdateStringtable (msgs.foldl (handleCreateStringtable skip) initPState) (k : Int) =
      msgs.foldl (handleCreateStringtable skip) initPState := by
  have hrun := handleCreate_run skip msgs initPState
  have htid : ∀ e ∈ (msgs.foldl (handleCreateStringtable skip) initPState).tables,
      e.tid ≠ (k : Int) := by
    intro e he
    rw [hrun] at he
    simp only [initPState, List.nil_append] at he
    obtain ⟨j, hj, het, hkept, _⟩ := mem_newTables skip msgs (-1) e he
    intro hek
    rw [hek] at het
    have hjk : j = k := by omega
    subst hjk
    rw [hkept] at hdrop
    exact absurd hdrop (by simp)
  refine ⟨?_, ?_, htid, ?_⟩
  · rw [hrun]
    simp only [initPState]
    ring
  · intro j hj hkept
    rw [hrun]
    simp only [initPState, List.nil_append]
    have := newTables_mem_of_kept skip msgs (-1) j hj hkept
    have he : (-1 : Int) + 1 + (j : Nat) = (j : Nat) := by ring
    rw [he] at this
    exact this
  · unfold handleUpdateStringtable
    have hfind : (msgs.foldl (handleCreateStringtable skip) initPState).tables.find?
        (fun e => e.tid == (k : Int)) = none := by
      rw [List.find?_eq_none]
      intro e he
      simpa using htid e he
    rw [hfind]

/-- C10 — witness: a single create record whose user_data_size_bits
has bit 1 set is dropped but still consumes id 0, and the update
addressed to id 0 is ignored. -/
theorem c10_dropped_table_consumes_id_witness :
    (([{ name := "drop", userDataSizeBits := 2 }] : List CreateMsg).foldl
        (handleCreateStringtable []) initPState).stringtableId =
      (([{ name := "drop", userDataSizeBits := 2 }] : List CreateMsg).length : Int) - 1 ∧
    (∀ j, ∀ hj : j < ([{ name := "drop", userDataSizeBits := 2 }] : List CreateMsg).length,
      droppedMsg [] ([{ name := "drop", userDataSizeBits := 2 }] : List CreateMsg)[j] = false →
      ({ tid := (j : Int),
         name := ([{ name := "drop", userDataSizeBits := 2 }] : List CreateMsg)[j].name,
         updates := 0 } : STEntry) ∈
        (([{ name := "drop", userDataSizeBits := 2 }] : List CreateMsg).foldl
          (handleCreateStringtable []) initPState).tables) ∧
    (∀ e ∈ (([{ name := "drop", userDataSizeBits := 2 }] : List CreateMsg).foldl
        (handleCreateStringtable []) initPState).tables, e.tid ≠ ((0 : Nat) : Int)) ∧
    handleUpdateStringtable
        (([{ name := "drop", userDataSizeBits := 2 }] : List CreateMsg).foldl
          (handleCreateStringtable []) initPState) ((0 : Nat) : Int) =
      ([{ name := "drop", userDataSizeBits := 2 }] : List CreateMsg).foldl
        (handleCreateStringtable []) initPState :=
  c10_dropped_table_consumes_id [] [{ name := "drop", userDataSizeBits := 2 }] 0
    (by decide) (by decide)

end Alice
